import Mathlib

/-!
Verification of the ProductBee roadmap-planning application.

The subject is the timeline / critical-path engine described by the
specification (a variant of the Critical Path Method over a directed
graph) together with two pieces of API plumbing that are present in the
source: the project GET route and the central error handler.

Dates are modelled as integer day numbers (a calendar day is its offset
from an arbitrary epoch; for the concrete examples 2024-01-01 is day 0,
so 2024-01-06 is day 5).  Feature identifiers are modelled as natural
numbers; the engine treats them as opaque values with a total order used
only for deterministic tie-breaking.
-/

namespace ProductBee

/-- Modelled from the spec: the input work item of the timeline engine
(section 3 of the spec).  The repository stores features in
`src/models/Feature.ts`; the engine itself (`lib/api/timeline.ts`) is
not part of the source snapshot, so its input shape is taken from the
spec: an opaque unique id, a duration in whole days (weeks are converted
to days at the boundary), and the ids of the features that must complete
first. -/
structure Feature where
  id : Nat
  durationDays : Int
  dependsOn : List Nat
deriving DecidableEq, Repr

/-- Modelled from the spec: a Feature augmented with the derived CPM
fields (section 3, ScheduledFeature). -/
structure ScheduledFeature where
  id : Nat
  durationDays : Int
  dependsOn : List Nat
  earliestStart : Int
  earliestFinish : Int
  latestStart : Int
  latestFinish : Int
  slackDays : Int
  isOnCriticalPath : Bool
deriving DecidableEq, Repr

/-- Modelled from the spec: the per-feature dependency lineage record
(section 3, DependencyChain). -/
structure DependencyChain where
  featureId : Nat
  chain : List Nat
  depth : Nat
deriving DecidableEq, Repr

/-- Modelled from the spec: the global critical path record (section 3,
CriticalPath). -/
structure CriticalPath where
  path : List Nat
  totalDuration : Int
  startDate : Int
  endDate : Int
deriving DecidableEq, Repr

/-- Modelled from the spec: a completion-date cluster (section 3,
Milestone).  The generated description string is omitted; it carries no
scheduling content. -/
structure Milestone where
  date : Int
  features : List Nat
deriving DecidableEq, Repr

/-- Modelled from the spec: an unordered pair of features whose
scheduled intervals intersect (section 3, Overlap). -/
structure Overlap where
  feature1 : Nat
  feature2 : Nat
  overlapDays : Int
deriving DecidableEq, Repr

/-- Modelled from the spec: the error taxonomy of section 7.  All three
are fatal input-validation failures. -/
inductive ScheduleError where
  | unknownDependency (featureId : Nat) (depId : Nat)
  | invalidDuration (featureId : Nat)
  | circularDependency (ids : List Nat)
deriving DecidableEq, Repr

/-- Modelled from the spec: the output contract of the engine
(section 6, TimelineResult). -/
structure TimelineResult where
  features : List ScheduledFeature
  dependencyChains : List DependencyChain
  criticalPath : Option CriticalPath
  milestones : List Milestone
  overlaps : List Overlap
deriving DecidableEq, Repr

/-- The ids present in the input feature list. -/
def allIds (fs : List Feature) : List Nat := fs.map Feature.id

/-- Modelled from the spec: graph-builder validation (section 4.1) that
every id in a dependsOn set refers to a feature present in the input.
Returns the first offending (feature, dependency) pair, if any. -/
def findUnknownDep (fs : List Feature) : Option (Nat × Nat) :=
  fs.findSome? (fun f =>
    (f.dependsOn.find? (fun d => !((allIds fs).contains d))).map (fun d => (f.id, d)))

/-- Modelled from the spec: the InvalidDuration validation (section 7):
a feature whose duration is zero or negative is a fatal input error. -/
def findInvalidDuration (fs : List Feature) : Option Nat :=
  (fs.find? (fun f => f.durationDays ≤ 0)).map Feature.id

/-- A feature is ready when every dependency has already been emitted. -/
def ready (doneIds : List Nat) (f : Feature) : Bool :=
  f.dependsOn.all (fun d => doneIds.contains d)

/-- Modelled from the spec: Kahn topological sort (section 4.1) by
repeatedly removing the features whose dependencies are all done.  When
no feature is ready but features remain, the remaining features are the
cyclic residue and their ids are reported.  Fuel equal to the list
length makes the recursion structural; each successful round removes at
least one feature, so the fuel never runs out on a successful run. -/
def kahnAux (fuel : Nat) (remaining : List Feature) (doneIds : List Nat) :
    Except (List Nat) (List Feature) :=
  match fuel with
  | 0 =>
      if remaining.isEmpty then Except.ok []
      else Except.error (remaining.map Feature.id)
  | fuel + 1 =>
      match remaining.filter (ready doneIds) with
      | [] =>
          if remaining.isEmpty then Except.ok []
          else Except.error (remaining.map Feature.id)
      | r :: rs =>
          match kahnAux fuel (remaining.filter (fun f => !(ready doneIds f)))
              (doneIds ++ (r :: rs).map Feature.id) with
          | Except.error l => Except.error l
          | Except.ok rest => Except.ok ((r :: rs) ++ rest)

/-- Modelled from the spec: the graph-builder topological ordering
entry point (section 4.1). -/
def kahn (fs : List Feature) : Except (List Nat) (List Feature) :=
  kahnAux fs.length fs []

/-- Map from feature id to (earliestStart, earliestFinish). -/
abbrev TimeMap := List (Nat × Int × Int)

/-- Earliest finish of a dependency, read from the forward-pass map.
The default is only reachable on unvalidated input. -/
def lookupEF (ps : Int) (m : TimeMap) (d : Nat) : Int :=
  match m.lookup d with
  | some e => e.2
  | none => ps

/-- Earliest start of a dependency, read from the forward-pass map. -/
def lookupES (ps : Int) (m : TimeMap) (d : Nat) : Int :=
  match m.lookup d with
  | some e => e.1
  | none => ps

/-- Modelled from the spec: the forward-pass recurrence (section 4.3.1):
projectStart when there are no dependencies, otherwise the maximum
earliest finish over the dependencies. -/
def esFrom (ps : Int) (m : TimeMap) (deps : List Nat) : Int :=
  match deps.map (lookupEF ps m) with
  | [] => ps
  | x :: xs => xs.foldl max x

/-- Modelled from the spec: the CPM forward pass (section 4.3.1) in
topological order, accumulating (id, earliestStart, earliestFinish). -/
def forward (ps : Int) : List Feature → TimeMap → TimeMap
  | [], m => m
  | f :: rest, m =>
      let es := esFrom ps m f.dependsOn
      forward ps rest (m ++ [(f.id, es, es + f.durationDays)])

/-- Modelled from the spec: overall project finish (section 4.3.2), the
maximum earliest finish over all features. -/
def projectFinish (ps : Int) (m : TimeMap) : Int :=
  m.foldl (fun a kv => max a kv.2.2) ps

/-- Map from feature id to (latestStart, latestFinish). -/
abbrev LateMap := List (Nat × Int × Int)

/-- Latest start of a dependent, read from the backward-pass map. -/
def lookupLS (pf : Int) (m : LateMap) (d : Nat) : Int :=
  match m.lookup d with
  | some e => e.1
  | none => pf

/-- Modelled from the spec: the backward-pass recurrence (section 4.3.3):
projectFinish when there are no dependents, otherwise the minimum latest
start over the dependents. -/
def lfFrom (pf : Int) (m : LateMap) (dependents : List Nat) : Int :=
  match dependents.map (lookupLS pf m) with
  | [] => pf
  | x :: xs => xs.foldl min x

/-- The ids of the features that depend on the given feature. -/
def dependentsOf (all : List Feature) (fid : Nat) : List Nat :=
  (all.filter (fun g => g.dependsOn.contains fid)).map Feature.id

/-- Modelled from the spec: the CPM backward pass (section 4.3.3) in
reverse topological order, accumulating (id, latestStart, latestFinish). -/
def backward (pf : Int) (all : List Feature) : List Feature → LateMap → LateMap
  | [], m => m
  | f :: rest, m =>
      let lf := lfFrom pf m (dependentsOf all f.id)
      backward pf all rest (m ++ [(f.id, lf - f.durationDays, lf)])

/-- Map from feature id to (chain, depth) for the chain analyzer. -/
abbrev ChainMap := List (Nat × List Nat × Nat)

/-- Lineage depth of a dependency, read from the chain map. -/
def depthOf (m : ChainMap) (d : Nat) : Nat :=
  match m.lookup d with
  | some e => e.2
  | none => 0

/-- Lineage chain of a dependency, read from the chain map. -/
def chainOf (m : ChainMap) (d : Nat) : List Nat :=
  match m.lookup d with
  | some e => e.1
  | none => [d]

/-- Modelled from the spec: the back-pointer choice of the chain
analyzer (section 4.2): the dependency producing the maximum depth, ties
resolved in favour of the dependency appearing first in the stable input
order. -/
def bestDep (m : ChainMap) : List Nat → Option Nat
  | [] => none
  | d :: ds =>
      match bestDep m ds with
      | none => some d
      | some b => if depthOf m b > depthOf m d then some b else some d

/-- Modelled from the spec: the dynamic program of the dependency chain
analyzer (section 4.2) in topological order. -/
def chainFold : List Feature → ChainMap → ChainMap
  | [], m => m
  | f :: rest, m =>
      match bestDep m f.dependsOn with
      | none => chainFold rest (m ++ [(f.id, [f.id], 0)])
      | some b => chainFold rest (m ++ [(f.id, chainOf m b ++ [f.id], depthOf m b + 1)])

/-- Modelled from the spec: the dependency chain analyzer
(section 4.2), one DependencyChain per input feature, in input order. -/
def buildDependencyChains (fs order : List Feature) : List DependencyChain :=
  let m := chainFold order []
  fs.map (fun f => ⟨f.id, chainOf m f.id, depthOf m f.id⟩)

/-- Head id of a candidate critical path (paths are nonempty wherever
this is used). -/
def headId (l : List Nat) : Nat := l.headD 0

/-- Modelled from the spec: the deterministic tie-break of
section 4.3.5.  A path is better when it is longer; among equal lengths
the one whose first element has the earlier earliestStart wins, and
among equal starts the smaller feature id wins. -/
def betterPath (ps : Int) (em : TimeMap) (p q : List Nat) : Bool :=
  if p.length ≠ q.length then decide (q.length < p.length)
  else if lookupES ps em (headId p) ≠ lookupES ps em (headId q) then
    decide (lookupES ps em (headId p) < lookupES ps em (headId q))
  else decide (headId p ≤ headId q)

/-- Pick the best candidate path under the deterministic tie-break; an
earlier candidate wins a tie against a later one. -/
def pickBest (ps : Int) (em : TimeMap) : List (List Nat) → Option (List Nat)
  | [] => none
  | p :: rest =>
      match pickBest ps em rest with
      | none => some p
      | some q => if betterPath ps em q p then some q else some p

/-- Modelled from the spec: the longest zero-slack path ending at each
zero-slack feature (section 4.3.5), computed along the topological
order with back-pointer paths. -/
def cpDP (critB : Nat → Bool) (ps : Int) (em : TimeMap) :
    List Feature → List (Nat × List Nat) → List (Nat × List Nat)
  | [], acc => acc
  | f :: rest, acc =>
      if critB f.id then
        let cands := f.dependsOn.filterMap (fun d => acc.lookup d)
        let p :=
          match pickBest ps em cands with
          | none => [f.id]
          | some q => q ++ [f.id]
        cpDP critB ps em rest (acc ++ [(f.id, p)])
      else cpDP critB ps em rest acc

/-- A feature nobody depends on. -/
def isTerminal (all : List Feature) (fid : Nat) : Bool :=
  all.all (fun g => !(g.dependsOn.contains fid))

/-- Duration of a feature id within the input list. -/
def durOf (fs : List Feature) (d : Nat) : Int :=
  match fs.find? (fun f => f.id == d) with
  | some f => f.durationDays
  | none => 0

/-- Modelled from the spec: the critical path selection
(section 4.3.5): among the zero-slack terminal features, the best
zero-slack root-to-terminal path under the deterministic tie-break;
absent when the feature set is empty. -/
def calcCP (ps : Int) (em : TimeMap) (critB : Nat → Bool) (order : List Feature) :
    Option CriticalPath :=
  let paths := cpDP critB ps em order []
  let terminals := order.filter (fun f => critB f.id && isTerminal order f.id)
  match pickBest ps em (terminals.filterMap (fun f => paths.lookup f.id)) with
  | none => none
  | some p =>
      some ⟨p, (p.map (durOf order)).sum, lookupES ps em (headId p),
        lookupEF ps em (p.getLastD 0)⟩

/-- Insert into an ascending list of dates. -/
def insertAsc (x : Int) : List Int → List Int
  | [] => [x]
  | y :: ys => if x ≤ y then x :: y :: ys else y :: insertAsc x ys

/-- Sort dates ascending. -/
def sortAsc (l : List Int) : List Int := l.foldr insertAsc []

/-- Modelled from the spec: milestone grouping (section 4.4): the
distinct earliest-finish dates in ascending order, each with the
features finishing that day. -/
def calculateMilestones (sfs : List ScheduledFeature) : List Milestone :=
  (sortAsc ((sfs.map ScheduledFeature.earliestFinish).dedup)).map (fun d =>
    ⟨d, (sfs.filter (fun sf => sf.earliestFinish == d)).map ScheduledFeature.id⟩)

/-- Modelled from the spec: the day count of the intersection of two
scheduled intervals (section 4.4). -/
def overlapDays (a b : ScheduledFeature) : Int :=
  max 0 (min a.earliestFinish b.earliestFinish - max a.earliestStart b.earliestStart)

/-- Modelled from the spec: the pairwise overlap scan (section 4.4):
every unordered pair of scheduled features with a positive intersection,
each pair emitted once. -/
def calculateOverlaps : List ScheduledFeature → List Overlap
  | [] => []
  | x :: xs =>
      (xs.filter (fun y => 0 < overlapDays x y)).map
        (fun y => ⟨x.id, y.id, overlapDays x y⟩) ++ calculateOverlaps xs

/-- Modelled from the spec: assembly of one ScheduledFeature from the
two pass maps (section 4.3.4): slackDays = latestStart − earliestStart
and isOnCriticalPath means zero slack. -/
def mkScheduled (ps : Int) (em : TimeMap) (lm : LateMap) (f : Feature) :
    ScheduledFeature :=
  let e := (em.lookup f.id).getD (ps, ps)
  let l := (lm.lookup f.id).getD (ps, ps)
  ⟨f.id, f.durationDays, f.dependsOn, e.1, e.2, l.1, l.2, l.1 - e.1,
    decide (l.1 - e.1 = 0)⟩

/-- Modelled from the spec: the full derived result for a validated
graph, given the topological order produced by the builder. -/
def buildResult (ps : Int) (fs order : List Feature) : TimelineResult :=
  let em := forward ps order []
  let pf := projectFinish ps em
  let lm := backward pf order order.reverse []
  let sfs := fs.map (mkScheduled ps em lm)
  let critB : Nat → Bool := fun d =>
    decide ((lookupLS pf lm d) - (lookupES ps em d) = 0)
  ⟨sfs, buildDependencyChains fs order, calcCP ps em critB order,
    calculateMilestones sfs, calculateOverlaps sfs⟩

/-- Modelled from the spec: the engine entry point
`schedule(features) -> TimelineResult` (sections 2, 4.3 and 7): the
validations and the cycle check are fatal, otherwise the full pipeline
runs on the topological order. -/
def schedule (ps : Int) (fs : List Feature) : Except ScheduleError TimelineResult :=
  match findUnknownDep fs with
  | some pr => Except.error (ScheduleError.unknownDependency pr.1 pr.2)
  | none =>
      match findInvalidDuration fs with
      | some fid => Except.error (ScheduleError.invalidDuration fid)
      | none =>
          match kahn fs with
          | Except.error ids => Except.error (ScheduleError.circularDependency ids)
          | Except.ok order => Except.ok (buildResult ps fs order)

/-- The dependency edge relation of an input feature list: a depends on
b when the feature with id a lists b in its dependsOn set. -/
def edgeF (fs : List Feature) (a b : Nat) : Prop :=
  ∃ f ∈ fs, f.id = a ∧ b ∈ f.dependsOn

/-- A nonempty closed walk along dependency edges. -/
def isCycle (fs : List Feature) : List Nat → Prop
  | [] => False
  | a :: rest =>
      List.Chain (edgeF fs) a rest ∧
      edgeF fs ((a :: rest).getLast (List.cons_ne_nil a rest)) a

/-- The dependency graph has no cycle. -/
def acyclic (fs : List Feature) : Prop := ∀ l, ¬ isCycle fs l

/-- Valid engine input per the spec (sections 3, 6 and 7): unique ids,
every dependency id present, positive durations, and an acyclic
dependency graph. -/
def validDAG (fs : List Feature) : Prop :=
  (allIds fs).Nodup ∧
  (∀ f ∈ fs, ∀ d ∈ f.dependsOn, d ∈ allIds fs) ∧
  (∀ f ∈ fs, 0 < f.durationDays) ∧
  acyclic fs

/-- The dependencies of every list element are emitted before it:
each feature only depends on ids already done. -/
def depsBefore (doneIds : List Nat) : List Feature → Prop
  | [] => True
  | f :: rest => (∀ d ∈ f.dependsOn, d ∈ doneIds) ∧ depsBefore (doneIds ++ [f.id]) rest

/-- A nonempty id set in which every member has a dependency inside the
set; such a set can never be drained by Kahn removal. -/
def trapped (fs : List Feature) (C : List Nat) : Prop :=
  C ≠ [] ∧ ∀ c ∈ C, ∃ f ∈ fs, f.id = c ∧ ∃ d ∈ f.dependsOn, d ∈ C

/-- A canonical successor inside a trapped set: the first in-set
dependency of the (unique) feature carrying the given id. -/
def succIn (fs : List Feature) (C : List Nat) (c : Nat) : Nat :=
  match fs.find? (fun f => f.id == c) with
  | none => c
  | some f =>
      match f.dependsOn.find? (fun d => C.contains d) with
      | none => c
      | some d => d

/-- The walk of given length that repeatedly takes the canonical
successor, starting at c. -/
def walkList (fs : List Feature) (C : List Nat) (c : Nat) : Nat → List Nat
  | 0 => [c]
  | n + 1 => c :: walkList fs C (succIn fs C c) n

/-- Earliest finish of the scheduled feature with the given id inside a
timeline result. -/
def efOf (r : TimelineResult) (d : Nat) : Int :=
  match r.features.find? (fun sf => sf.id == d) with
  | some sf => sf.earliestFinish
  | none => 0

/-- Lineage depth of the dependency chain entry with the given id
inside a timeline result. -/
def depthIn (r : TimelineResult) (d : Nat) : Nat :=
  match r.dependencyChains.find? (fun dc => dc.featureId == d) with
  | some dc => dc.depth
  | none => 0

/-- Whether an overlap entry is about the unordered id pair (p, q). -/
def mentionsPair (o : Overlap) (p q : Nat) : Bool :=
  (o.feature1 == p && o.feature2 == q) || (o.feature1 == q && o.feature2 == p)

/-! ## The error handler of lib/api/errors.ts

Embedded from the source (src/unnamed/part_000, lines 49 to 80): the
route-level error handler converts a thrown value to a JSON response.
A thrown value is an APIError (message, statusCode, optional code), a
plain Error (message), or any other value.  HTTP_STATUS constants come
from lib/constants.ts; INTERNAL_SERVER_ERROR is 500 (per the API
documentation error-code table). -/

/-- The HTTP 500 constant of lib/constants.ts. -/
def HTTP_STATUS_INTERNAL_SERVER_ERROR : Nat := 500

/-- A JavaScript thrown value as discriminated by handleError. -/
inductive Thrown where
  | apiError (message : String) (statusCode : Nat) (code : Option String)
  | otherError (message : String)
  | nonError
deriving DecidableEq, Repr

/-- The JSON body produced by handleError: success flag, error message,
and the optional machine-readable code (absent for non-APIError
values). -/
structure ErrorBody where
  success : Bool
  error : String
  code : Option String
deriving DecidableEq, Repr

/-- A JSON response with its HTTP status. -/
structure ErrResponse where
  status : Nat
  body : ErrorBody
deriving DecidableEq, Repr

/-- Embedded from src/unnamed/part_000 lines 49 to 80: handleError of
lib/api/errors.ts.  An APIError keeps its own statusCode, message and
code; any other Error yields 500 with its message; any non-Error value
yields 500 with a fixed message.  Every branch sets success to false. -/
def handleError : Thrown → ErrResponse
  | Thrown.apiError m s c => ⟨s, ⟨false, m, c⟩⟩
  | Thrown.otherError m => ⟨HTTP_STATUS_INTERNAL_SERVER_ERROR, ⟨false, m, none⟩⟩
  | Thrown.nonError =>
      ⟨HTTP_STATUS_INTERNAL_SERVER_ERROR, ⟨false, "Unknown error occurred", none⟩⟩

/-! ## The project GET route

Embedded from src/app/api/project/[id]/route.ts: the handler checks the
session, validates the id as a Mongo ObjectId, loads the project, loads
its features sorted by createdAt ascending and its feedback sorted by
createdAt descending, groups the feedback by feature id, and answers
with exactly the keys project, features and feedbackByFeature.  No
timeline computation is invoked anywhere in the route. -/

/-- An authenticated Auth0 session. -/
structure Session where
  userId : Nat
deriving DecidableEq, Repr

/-- A project row as returned by the database. -/
structure ProjectRow where
  id : Nat
deriving DecidableEq, Repr

/-- A feature row as returned by the database. -/
structure FeatureRow where
  id : Nat
  projectId : Nat
  createdAt : Int
deriving DecidableEq, Repr

/-- A feedback row as returned by the database. -/
structure FeedbackRow where
  id : Nat
  projectId : Nat
  featureId : Nat
  createdAt : Int
deriving DecidableEq, Repr

/-- A value stored under one key of the 200 response body. -/
inductive BodyVal where
  | projectVal (p : ProjectRow)
  | featuresVal (l : List FeatureRow)
  | feedbackMapVal (m : List (Nat × List FeedbackRow))
deriving DecidableEq, Repr

/-- The route outcome: an error status with its message, or the JSON
object of the 200 response as a key-value list. -/
inductive GetProjectResult where
  | errorResp (status : Nat) (message : String)
  | okResp (body : List (String × BodyVal))
deriving DecidableEq, Repr

/-- Stable insertion into a list sorted by the given comparison. -/
def insertBy {α : Type} (le : α → α → Bool) (x : α) : List α → List α
  | [] => [x]
  | y :: ys => if le x y then x :: y :: ys else y :: insertBy le x ys

/-- Stable insertion sort by the given comparison. -/
def sortBy {α : Type} (le : α → α → Bool) (l : List α) : List α :=
  l.foldr (insertBy le) []

/-- Append a feedback row to the group of its feature, keeping groups
in order of first appearance (the object-key insertion order of the
route). -/
def insertFb (acc : List (Nat × List FeedbackRow)) (fb : FeedbackRow) :
    List (Nat × List FeedbackRow) :=
  match acc with
  | [] => [(fb.featureId, [fb])]
  | (k, l) :: rest =>
      if k == fb.featureId then (k, l ++ [fb]) :: rest
      else (k, l) :: insertFb rest fb

/-- Group feedback rows by feature id in encounter order. -/
def groupByFeature (fbs : List FeedbackRow) : List (Nat × List FeedbackRow) :=
  fbs.foldl insertFb []

/-- Embedded from src/app/api/project/[id]/route.ts: the GET handler.
validObjectId stands for mongoose.Types.ObjectId.isValid. -/
def GET_project (sess : Option Session) (validObjectId : Nat → Bool)
    (projects : List ProjectRow) (features : List FeatureRow)
    (feedbacks : List FeedbackRow) (projectId : Nat) : GetProjectResult :=
  match sess with
  | none => GetProjectResult.errorResp 401 "Unauthorized"
  | some _ =>
      if !(validObjectId projectId) then
        GetProjectResult.errorResp 400 "Invalid project ID"
      else
        match projects.find? (fun q => q.id == projectId) with
        | none => GetProjectResult.errorResp 404 "Project not found"
        | some p =>
            let fs := sortBy (fun a b => decide (a.createdAt ≤ b.createdAt))
              (features.filter (fun f => f.projectId == projectId))
            let fb := sortBy (fun a b => decide (b.createdAt ≤ a.createdAt))
              (feedbacks.filter (fun f => f.projectId == projectId))
            GetProjectResult.okResp
              [("project", BodyVal.projectVal p),
               ("features", BodyVal.featuresVal fs),
               ("feedbackByFeature", BodyVal.feedbackMapVal (groupByFeature fb))]

/-! ## Concrete sample inputs from the testable properties of the spec

Dates are day numbers with 2024-01-01 as day 0, so day 5 is 2024-01-06. -/

/-- The no-dependency baseline: a single feature of five days. -/
def sampleFeature1 : Feature := ⟨1, 5, []⟩

/-- The engine output for the no-dependency baseline. -/
def sampleResult1 : TimelineResult :=
  ⟨[⟨1, 5, [], 0, 5, 0, 5, 0, true⟩], [⟨1, [1], 0⟩], some ⟨[1], 5, 0, 5⟩,
    [⟨5, [1]⟩], []⟩

/-- The linear chain A to B to C, ids 0, 1, 2, two days each. -/
def chainFeatures : List Feature := [⟨0, 2, []⟩, ⟨1, 2, [0]⟩, ⟨2, 2, [1]⟩]

/-- The engine output for the linear chain. -/
def chainResult : TimelineResult :=
  ⟨[⟨0, 2, [], 0, 2, 0, 2, 0, true⟩, ⟨1, 2, [0], 2, 4, 2, 4, 0, true⟩,
    ⟨2, 2, [1], 4, 6, 4, 6, 0, true⟩],
   [⟨0, [0], 0⟩, ⟨1, [0, 1], 1⟩, ⟨2, [0, 1, 2], 2⟩],
   some ⟨[0, 1, 2], 6, 0, 6⟩,
   [⟨2, [0]⟩, ⟨4, [1]⟩, ⟨6, [2]⟩], []⟩

/-- A three-cycle: 0 depends on 1, 1 on 2, 2 on 0. -/
def cyclicFeatures : List Feature := [⟨0, 1, [1]⟩, ⟨1, 1, [2]⟩, ⟨2, 1, [0]⟩]

/-- Two independent equal-duration features, ids 5 and 2: an exact
critical-path tie that the deterministic tie-break must resolve. -/
def tieFeatures : List Feature := [⟨5, 3, []⟩, ⟨2, 3, []⟩]

/-- Feature X of the overlap example: days 1 to 10 (start day 1,
duration 10, exclusive finish day 11). -/
def sampleX : ScheduledFeature := ⟨100, 10, [], 1, 11, 1, 11, 0, true⟩

/-- Feature Y of the overlap example: days 5 to 15. -/
def sampleY : ScheduledFeature := ⟨200, 11, [], 5, 16, 5, 16, 0, true⟩

/-! ## Basic lemmas about association lists, folds and keyed lookups -/

theorem lookup_append {β : Type} (m m2 : List (Nat × β)) (k : Nat) :
    (m ++ m2).lookup k =
      match m.lookup k with
      | some v => some v
      | none => m2.lookup k := by
  induction m with
  | nil => simp [List.lookup]
  | cons x xs ih =>
    obtain ⟨a, b⟩ := x
    rw [List.cons_append, List.lookup_cons, List.lookup_cons]
    cases h : k == a
    · simpa using ih
    · simp

theorem lookup_append_left {β : Type} {m : List (Nat × β)} {k : Nat} {v : β}
    (m2 : List (Nat × β)) (h : m.lookup k = some v) :
    (m ++ m2).lookup k = some v := by
  rw [lookup_append, h]

theorem lookup_none_iff {β : Type} (m : List (Nat × β)) (k : Nat) :
    m.lookup k = none ↔ k ∉ m.map Prod.fst := by
  induction m with
  | nil => simp [List.lookup]
  | cons x xs ih =>
    obtain ⟨a, b⟩ := x
    rw [List.lookup_cons]
    cases h : k == a
    · have hne : k ≠ a := by simpa using h
      simp [hne, ih]
    · have heq : k = a := by simpa using h
      simp [heq]

theorem lookup_isSome_iff {β : Type} (m : List (Nat × β)) (k : Nat) :
    (m.lookup k).isSome = true ↔ k ∈ m.map Prod.fst := by
  rw [Option.isSome_iff_ne_none, not_iff_comm, lookup_none_iff]

theorem mem_of_lookup {β : Type} {m : List (Nat × β)} {k : Nat} {v : β}
    (h : m.lookup k = some v) : (k, v) ∈ m := by
  induction m with
  | nil => simp [List.lookup] at h
  | cons x xs ih =>
    obtain ⟨a, b⟩ := x
    rw [List.lookup_cons] at h
    cases hk : k == a
    · rw [hk] at h
      exact List.mem_cons_of_mem _ (ih h)
    · rw [hk] at h
      have hka : k = a := by simpa using hk
      cases h
      simp [hka]

theorem foldl_max_mem (xs : List Int) : ∀ x : Int, xs.foldl max x ∈ x :: xs := by
  induction xs with
  | nil => simp
  | cons z zs ih =>
    intro x
    rw [List.foldl_cons]
    rcases List.mem_cons.mp (ih (max x z)) with h | h
    · rw [h]
      rcases max_choice x z with hc | hc
      · rw [hc]; exact List.mem_cons_self _ _
      · rw [hc]; exact List.mem_cons_of_mem _ (List.mem_cons_self _ _)
    · exact List.mem_cons_of_mem _ (List.mem_cons_of_mem _ h)

theorem le_foldl_max (xs : List Int) : ∀ x : Int, ∀ y ∈ x :: xs, y ≤ xs.foldl max x := by
  induction xs with
  | nil => simp
  | cons z zs ih =>
    intro x y hy
    rw [List.foldl_cons]
    rcases List.mem_cons.mp hy with hy | hy
    · subst hy
      exact le_trans (le_max_left y z) (ih (max y z) _ (List.mem_cons_self _ _))
    rcases List.mem_cons.mp hy with hy | hy
    · subst hy
      exact le_trans (le_max_right x y) (ih (max x y) _ (List.mem_cons_self _ _))
    · exact ih (max x z) y (List.mem_cons_of_mem _ hy)

theorem foldl_min_mem (xs : List Int) : ∀ x : Int, xs.foldl min x ∈ x :: xs := by
  induction xs with
  | nil => simp
  | cons z zs ih =>
    intro x
    rw [List.foldl_cons]
    rcases List.mem_cons.mp (ih (min x z)) with h | h
    · rw [h]
      rcases min_choice x z with hc | hc
      · rw [hc]; exact List.mem_cons_self _ _
      · rw [hc]; exact List.mem_cons_of_mem _ (List.mem_cons_self _ _)
    · exact List.mem_cons_of_mem _ (List.mem_cons_of_mem _ h)

theorem foldl_min_le (xs : List Int) : ∀ x : Int, ∀ y ∈ x :: xs, xs.foldl min x ≤ y := by
  induction xs with
  | nil => simp
  | cons z zs ih =>
    intro x y hy
    rw [List.foldl_cons]
    rcases List.mem_cons.mp hy with hy | hy
    · subst hy
      exact le_trans (ih (min y z) _ (List.mem_cons_self _ _)) (min_le_left y z)
    rcases List.mem_cons.mp hy with hy | hy
    · subst hy
      exact le_trans (ih (min x y) _ (List.mem_cons_self _ _)) (min_le_right x y)
    · exact ih (min x z) y (List.mem_cons_of_mem _ hy)

theorem find?_key_nodup {α : Type} (key : α → Nat) {l : List α}
    (hnd : (l.map key).Nodup) {a : α} (ha : a ∈ l) :
    l.find? (fun x => key x == key a) = some a := by
  induction l with
  | nil => simp at ha
  | cons g gs ih =>
    rw [List.map_cons, List.nodup_cons] at hnd
    rcases List.mem_cons.mp ha with ha | ha
    · subst ha
      simp [List.find?_cons_of_pos]
    · have hne : key g ≠ key a := by
        intro hcontra
        exact hnd.1 (hcontra ▸ List.mem_map_of_mem key ha)
      rw [List.find?_cons_of_neg _ (by simpa using hne)]
      exact ih hnd.2 ha

/-! ## Properties of the Kahn topological sort -/

theorem depsBefore_mono : ∀ (l : List Feature) (d1 d2 : List Nat),
    d1 ⊆ d2 → depsBefore d1 l → depsBefore d2 l := by
  intro l
  induction l with
  | nil => intro d1 d2 _ _; trivial
  | cons f rest ih =>
    intro d1 d2 hsub h
    refine ⟨fun d hd => hsub (h.1 d hd), ih _ _ ?_ h.2⟩
    intro x hx
    rcases List.mem_append.mp hx with hx | hx
    · exact List.mem_append_left _ (hsub hx)
    · exact List.mem_append_right _ hx

theorem depsBefore_block : ∀ (blk rest : List Feature) (done : List Nat),
    (∀ f ∈ blk, ∀ d ∈ f.dependsOn, d ∈ done) →
    depsBefore (done ++ blk.map Feature.id) rest →
    depsBefore done (blk ++ rest) := by
  intro blk
  induction blk with
  | nil => intro rest done _ h; simpa using h
  | cons f blk ih =>
    intro rest done hblk h
    refine ⟨fun d hd => hblk f (List.mem_cons_self _ _) d hd, ?_⟩
    apply ih
    · intro g hg d hd
      exact List.mem_append_left _ (hblk g (List.mem_cons_of_mem _ hg) d hd)
    · simpa [List.append_assoc] using h

theorem ready_deps {doneIds : List Nat} {f : Feature} (h : ready doneIds f = true) :
    ∀ d ∈ f.dependsOn, d ∈ doneIds := by
  intro d hd
  have := (List.all_eq_true.mp h) d hd
  exact List.elem_iff.mp this

theorem kahnAux_ok : ∀ (fuel : Nat) (remaining : List Feature) (doneIds : List Nat)
    (order : List Feature),
    kahnAux fuel remaining doneIds = Except.ok order →
    order.Perm remaining ∧ depsBefore doneIds order := by
  intro fuel
  induction fuel with
  | zero =>
    intro remaining doneIds order h
    simp only [kahnAux] at h
    by_cases he : remaining.isEmpty
    · rw [if_pos he] at h
      have hrem : remaining = [] := List.isEmpty_iff.mp he
      have horder : order = [] := by simpa using h.symm
      subst hrem; subst horder
      exact ⟨List.Perm.refl _, trivial⟩
    · rw [if_neg he] at h
      simp at h
  | succ fuel ih =>
    intro remaining doneIds order h
    simp only [kahnAux] at h
    cases hfilt : remaining.filter (ready doneIds) with
    | nil =>
      rw [hfilt] at h
      by_cases he : remaining.isEmpty
      · rw [if_pos he] at h
        have hrem : remaining = [] := List.isEmpty_iff.mp he
        have horder : order = [] := by simpa using h.symm
        subst hrem; subst horder
        exact ⟨List.Perm.refl _, trivial⟩
      · rw [if_neg he] at h
        simp at h
    | cons r rs =>
      rw [hfilt] at h
      dsimp only at h
      cases hrec : kahnAux fuel (remaining.filter (fun f => !(ready doneIds f)))
          (doneIds ++ (r :: rs).map Feature.id) with
      | error l => rw [hrec] at h; simp at h
      | ok rest =>
        rw [hrec] at h
        have horder : order = (r :: rs) ++ rest := by simpa using h.symm
        obtain ⟨hperm, hdb⟩ := ih _ _ _ hrec
        subst horder
        constructor
        · refine List.Perm.trans (List.Perm.append_left (r :: rs) hperm) ?_
          rw [← hfilt]
          exact List.filter_append_perm _ remaining
        · apply depsBefore_block
          · intro g hg d hd
            have hgf : g ∈ remaining.filter (ready doneIds) := hfilt ▸ hg
            exact ready_deps (List.mem_filter.mp hgf).2 d hd
          · exact hdb

theorem trapped_not_ready {doneIds C : List Nat}
    (hdis : ∀ c ∈ C, c ∉ doneIds) {f : Feature} {d : Nat}
    (hd : d ∈ f.dependsOn) (hdC : d ∈ C) : ready doneIds f = false := by
  cases hr : ready doneIds f
  · rfl
  · exact absurd (ready_deps hr d hd) (hdis d hdC)

theorem kahnAux_trapped : ∀ (fuel : Nat) (remaining : List Feature) (doneIds C : List Nat),
    (remaining.map Feature.id).Nodup →
    trapped remaining C →
    (∀ c ∈ C, c ∉ doneIds) →
    ∃ l, kahnAux fuel remaining doneIds = Except.error l ∧ ∀ c ∈ C, c ∈ l := by
  intro fuel
  induction fuel with
  | zero =>
    intro remaining doneIds C _ htr _
    obtain ⟨hne, hcl⟩ := htr
    obtain ⟨c0, hc0⟩ := List.exists_mem_of_ne_nil C hne
    obtain ⟨f0, hf0, _⟩ := hcl c0 hc0
    refine ⟨remaining.map Feature.id, ?_, ?_⟩
    · simp only [kahnAux]
      rw [if_neg ?_]
      by_cases he : remaining.isEmpty
      · exact absurd (List.isEmpty_iff.mp he ▸ hf0) (List.not_mem_nil f0)
      · simpa using he
    · intro c hc
      obtain ⟨f, hf, hfid, _⟩ := hcl c hc
      exact hfid ▸ List.mem_map_of_mem Feature.id hf
  | succ fuel ih =>
    intro remaining doneIds C hnd htr hdis
    obtain ⟨hne, hcl⟩ := htr
    cases hfilt : remaining.filter (ready doneIds) with
    | nil =>
      obtain ⟨c0, hc0⟩ := List.exists_mem_of_ne_nil C hne
      obtain ⟨f0, hf0, _⟩ := hcl c0 hc0
      refine ⟨remaining.map Feature.id, ?_, ?_⟩
      · simp only [kahnAux]
        rw [hfilt]
        dsimp only
        rw [if_neg ?_]
        by_cases he : remaining.isEmpty
        · exact absurd (List.isEmpty_iff.mp he ▸ hf0) (List.not_mem_nil f0)
        · simpa using he
      · intro c hc
        obtain ⟨f, hf, hfid, _⟩ := hcl c hc
        exact hfid ▸ List.mem_map_of_mem Feature.id hf
    | cons r rs =>
      have hnd2 : ((remaining.filter (fun f => !(ready doneIds f))).map Feature.id).Nodup :=
        ((List.filter_sublist _).map _).nodup hnd
      have htr2 : trapped (remaining.filter (fun f => !(ready doneIds f))) C := by
        refine ⟨hne, ?_⟩
        intro c hc
        obtain ⟨f, hf, hfid, d, hd, hdC⟩ := hcl c hc
        have hready : ready doneIds f = false := trapped_not_ready hdis hd hdC
        exact ⟨f, List.mem_filter.mpr ⟨hf, by simp [hready]⟩, hfid, d, hd, hdC⟩
      have hdis2 : ∀ c ∈ C, c ∉ doneIds ++ (r :: rs).map Feature.id := by
        intro c hc hmem
        rcases List.mem_append.mp hmem with hm | hm
        · exact hdis c hc hm
        · obtain ⟨g, hg, hgid⟩ := List.mem_map.mp hm
          have hgfilt := List.mem_filter.mp (hfilt ▸ hg)
          obtain ⟨f, hf, hfid, d, hd, hdC⟩ := hcl c hc
          have hfg : f = g :=
            List.inj_on_of_nodup_map hnd hf hgfilt.1 (by rw [hfid, hgid])
          have hrdy : ready doneIds f = true := hfg ▸ hgfilt.2
          exact hdis d hdC (ready_deps hrdy d hd)
      obtain ⟨l, hl, hsub⟩ := ih _ _ _ hnd2 htr2 hdis2
      refine ⟨l, ?_, hsub⟩
      simp only [kahnAux]
      rw [hfilt]
      dsimp only
      rw [hl]

/-! ## Cycles are trapped sets, so the builder rejects them -/

theorem chain_mem_succ {R : Nat → Nat → Prop} :
    ∀ (rest : List Nat) (a : Nat), List.Chain R a rest →
      ∀ c ∈ a :: rest, c = (a :: rest).getLast (List.cons_ne_nil a rest) ∨
        ∃ d ∈ a :: rest, R c d := by
  intro rest
  induction rest with
  | nil =>
    intro a _ c hc
    left
    have hca : c = a := by simpa using hc
    simp [hca]
  | cons b rest ih =>
    intro a hch c hc
    rw [List.chain_cons] at hch
    rcases List.mem_cons.mp hc with hc | hc
    · right
      exact ⟨b, List.mem_cons_of_mem _ (List.mem_cons_self _ _), hc ▸ hch.1⟩
    · rcases ih b hch.2 c hc with hlast | hsucc
      · left
        rw [List.getLast_cons (List.cons_ne_nil b rest)]
        exact hlast
      · obtain ⟨d, hd, hRd⟩ := hsucc
        right
        exact ⟨d, List.mem_cons_of_mem _ hd, hRd⟩

theorem isCycle_trapped {fs : List Feature} {l : List Nat} (h : isCycle fs l) :
    trapped fs l := by
  cases l with
  | nil => exact absurd h (by simp [isCycle])
  | cons a rest =>
    obtain ⟨hch, hlast⟩ := h
    refine ⟨List.cons_ne_nil a rest, ?_⟩
    intro c hc
    rcases chain_mem_succ rest a hch c hc with hl | hsucc
    · obtain ⟨f, hf, hfid, hdep⟩ := hlast
      refine ⟨f, hf, ?_, a, hdep, List.mem_cons_self _ _⟩
      rw [hl]
      exact hfid
    · obtain ⟨d, hd, f, hf, hfid, hdep⟩ := hsucc
      exact ⟨f, hf, hfid, d, hdep, hd⟩

theorem kahn_cycle_error {fs : List Feature} {l : List Nat}
    (hnd : (allIds fs).Nodup) (hcyc : isCycle fs l) :
    ∃ ids, kahn fs = Except.error ids ∧ ∀ c ∈ l, c ∈ ids := by
  have htr := isCycle_trapped hcyc
  obtain ⟨ids, h1, h2⟩ := kahnAux_trapped fs.length fs [] l hnd htr (by simp)
  exact ⟨ids, h1, h2⟩

theorem acyclic_of_kahn_isOk {fs : List Feature}
    (hnd : (allIds fs).Nodup) (h : (kahn fs).isOk = true) : acyclic fs := by
  intro l hcyc
  obtain ⟨ids, he, _⟩ := kahn_cycle_error hnd hcyc
  rw [he] at h
  simp [Except.isOk, Except.toBool] at h

theorem findUnknownDep_none {fs : List Feature}
    (h : ∀ f ∈ fs, ∀ d ∈ f.dependsOn, d ∈ allIds fs) :
    findUnknownDep fs = none := by
  rw [findUnknownDep, List.findSome?_eq_none_iff]
  intro f hf
  have hnone : f.dependsOn.find? (fun d => !((allIds fs).contains d)) = none := by
    rw [List.find?_eq_none]
    intro d hd
    have hc : (allIds fs).contains d = true := List.elem_iff.mpr (h f hf d hd)
    simp [hc]
    exact h f hf d hd
  rw [hnone]
  rfl

theorem findInvalidDuration_none {fs : List Feature}
    (h : ∀ f ∈ fs, 0 < f.durationDays) :
    findInvalidDuration fs = none := by
  rw [findInvalidDuration]
  have hnone : fs.find? (fun f => f.durationDays ≤ 0) = none := by
    rw [List.find?_eq_none]
    intro f hf
    simpa using h f hf
  rw [hnone]
  rfl

/-! ## A stuck Kahn state contains a cycle, so acyclic inputs succeed -/

theorem succIn_spec {fs : List Feature} {C : List Nat}
    (hnd : (fs.map Feature.id).Nodup)
    (hcl : ∀ c ∈ C, ∃ f ∈ fs, f.id = c ∧ ∃ d ∈ f.dependsOn, d ∈ C) :
    ∀ c ∈ C, edgeF fs c (succIn fs C c) ∧ succIn fs C c ∈ C := by
  intro c hc
  obtain ⟨f, hf, hfid, d, hd, hdC⟩ := hcl c hc
  have hfind : fs.find? (fun g => g.id == c) = some f := by
    have hkey := find?_key_nodup Feature.id hnd hf
    rw [hfid] at hkey
    exact hkey
  have hsome : (f.dependsOn.find? (fun x => C.contains x)).isSome = true := by
    rw [List.find?_isSome]
    exact ⟨d, hd, List.elem_iff.mpr hdC⟩
  obtain ⟨d0, hd0⟩ := Option.isSome_iff_exists.mp hsome
  have hd0mem := List.mem_of_find?_eq_some hd0
  have hd0cont : C.contains d0 = true := List.find?_some hd0
  have hd0C : d0 ∈ C := List.elem_iff.mp hd0cont
  have hval : succIn fs C c = d0 := by
    rw [succIn, hfind]
    dsimp only
    rw [hd0]
  rw [hval]
  exact ⟨⟨f, hf, hfid, hd0mem⟩, hd0C⟩

theorem walkList_head (fs : List Feature) (C : List Nat) (c : Nat) (n : Nat) :
    ∃ rest, walkList fs C c n = c :: rest := by
  cases n <;> exact ⟨_, rfl⟩

theorem walkList_getLast (fs : List Feature) (C : List Nat) :
    ∀ (n : Nat) (c : Nat) (h : walkList fs C c n ≠ []),
      (walkList fs C c n).getLast h = (succIn fs C)^[n] c := by
  intro n
  induction n with
  | zero => intro c h; simp [walkList]
  | succ n ih =>
    intro c h
    have hne : walkList fs C (succIn fs C c) n ≠ [] := by
      obtain ⟨rest, hr⟩ := walkList_head fs C (succIn fs C c) n
      simp [hr]
    calc (walkList fs C c (n + 1)).getLast h
        = (walkList fs C (succIn fs C c) n).getLast hne := List.getLast_cons hne
      _ = (succIn fs C)^[n] (succIn fs C c) := ih (succIn fs C c) hne
      _ = (succIn fs C)^[n + 1] c := (Function.iterate_succ_apply (succIn fs C) n c).symm

theorem walkList_chain {fs : List Feature} {C : List Nat}
    (hstep : ∀ c ∈ C, edgeF fs c (succIn fs C c) ∧ succIn fs C c ∈ C) :
    ∀ (n : Nat) (c : Nat), c ∈ C → ∀ rest, walkList fs C c n = c :: rest →
      List.Chain (edgeF fs) c rest := by
  intro n
  induction n with
  | zero =>
    intro c _ rest h
    have : rest = [] := by simpa [walkList] using h.symm
    subst this
    exact List.Chain.nil
  | succ n ih =>
    intro c hc rest h
    have hcons : c :: walkList fs C (succIn fs C c) n = c :: rest := h
    have hrest : rest = walkList fs C (succIn fs C c) n := by
      injection hcons with _ h3
      exact h3.symm
    obtain ⟨rest2, h2⟩ := walkList_head fs C (succIn fs C c) n
    subst hrest
    rw [h2]
    exact List.Chain.cons (hstep c hc).1 (ih (succIn fs C c) (hstep c hc).2 rest2 h2)

theorem iterate_mem_of_closed {fs : List Feature} {C : List Nat}
    (hstep : ∀ c ∈ C, edgeF fs c (succIn fs C c) ∧ succIn fs C c ∈ C) :
    ∀ (n : Nat) (c : Nat), c ∈ C → (succIn fs C)^[n] c ∈ C := by
  intro n
  induction n with
  | zero => intro c hc; simpa using hc
  | succ n ih =>
    intro c hc
    rw [Function.iterate_succ_apply']
    exact (hstep _ (ih c hc)).2

theorem cycle_of_fixpoint {fs : List Feature} {C : List Nat}
    (hstep : ∀ c ∈ C, edgeF fs c (succIn fs C c) ∧ succIn fs C c ∈ C)
    {b : Nat} (hb : b ∈ C) {k : Nat} (hk : 0 < k)
    (hfix : (succIn fs C)^[k] b = b) : ∃ l, isCycle fs l := by
  obtain ⟨rest, hw⟩ := walkList_head fs C b (k - 1)
  refine ⟨b :: rest, ?_, ?_⟩
  · exact walkList_chain hstep (k - 1) b hb rest hw
  · have hne : walkList fs C b (k - 1) ≠ [] := by simp [hw]
    have hlast : (b :: rest).getLast (List.cons_ne_nil b rest)
        = (succIn fs C)^[k - 1] b := by
      rw [← walkList_getLast fs C (k - 1) b hne]
      congr 1
      exact hw.symm
    rw [hlast]
    have hmem : (succIn fs C)^[k - 1] b ∈ C := iterate_mem_of_closed hstep (k - 1) b hb
    have hedge := (hstep _ hmem).1
    have hsucc : succIn fs C ((succIn fs C)^[k - 1] b) = b := by
      rw [← Function.iterate_succ_apply' (succIn fs C) (k - 1) b]
      rw [show (k - 1).succ = k from by omega]
      exact hfix
    rwa [hsucc] at hedge

theorem closed_set_cycle {fs : List Feature} {C : List Nat}
    (hnd : (fs.map Feature.id).Nodup)
    (hne : C ≠ [])
    (hcl : ∀ c ∈ C, ∃ f ∈ fs, f.id = c ∧ ∃ d ∈ f.dependsOn, d ∈ C) :
    ∃ l, isCycle fs l := by
  have hstep := succIn_spec hnd hcl
  obtain ⟨c0, hc0⟩ := List.exists_mem_of_ne_nil C hne
  have hiter : ∀ n : Nat, (succIn fs C)^[n] c0 ∈ C :=
    fun n => iterate_mem_of_closed hstep n c0 hc0
  have hcard : C.toFinset.card < (Finset.range (C.length + 1)).card := by
    rw [Finset.card_range]
    exact Nat.lt_succ_of_le (List.toFinset_card_le C)
  obtain ⟨i, _, j, _, hij, heq⟩ :=
    Finset.exists_ne_map_eq_of_card_lt_of_maps_to hcard
      (fun n _ => List.mem_toFinset.mpr (hiter n))
  have key : ∀ a b : Nat, a < b → (succIn fs C)^[a] c0 = (succIn fs C)^[b] c0 →
      ∃ l, isCycle fs l := by
    intro a b hab hfeq
    apply cycle_of_fixpoint hstep (hiter a) (Nat.sub_pos_of_lt hab)
    have : (succIn fs C)^[b] c0 = (succIn fs C)^[b - a] ((succIn fs C)^[a] c0) := by
      rw [← Function.iterate_add_apply]
      congr 1
      omega
    rw [← this]
    exact hfeq.symm
  rcases lt_or_gt_of_ne hij with hlt | hgt
  · exact key i j hlt heq
  · exact key j i hgt heq.symm

theorem edgeF_mono {fs1 fs2 : List Feature} (hsub : ∀ f ∈ fs1, f ∈ fs2)
    {a b : Nat} (h : edgeF fs1 a b) : edgeF fs2 a b := by
  obtain ⟨f, hf, h1, h2⟩ := h
  exact ⟨f, hsub f hf, h1, h2⟩

theorem isCycle_mono {fs1 fs2 : List Feature} (hsub : ∀ f ∈ fs1, f ∈ fs2)
    {l : List Nat} (h : isCycle fs1 l) : isCycle fs2 l := by
  cases l with
  | nil => exact absurd h (by simp [isCycle])
  | cons a rest =>
    obtain ⟨hch, hl⟩ := h
    exact ⟨hch.imp (fun x y hxy => edgeF_mono hsub hxy), edgeF_mono hsub hl⟩

theorem kahnAux_complete : ∀ (fuel : Nat) (remaining : List Feature) (doneIds : List Nat),
    remaining.length ≤ fuel →
    (remaining.map Feature.id).Nodup →
    (∀ f ∈ remaining, ∀ d ∈ f.dependsOn, d ∈ doneIds ∨ d ∈ remaining.map Feature.id) →
    (∀ l, ¬ isCycle remaining l) →
    ∃ order, kahnAux fuel remaining doneIds = Except.ok order := by
  intro fuel
  induction fuel with
  | zero =>
    intro remaining doneIds hlen _ _ _
    have hnil : remaining = [] := List.length_eq_zero.mp (Nat.le_zero.mp hlen)
    subst hnil
    exact ⟨[], by simp [kahnAux]⟩
  | succ fuel ih =>
    intro remaining doneIds hlen hnd hdeps hacy
    cases hfilt : remaining.filter (ready doneIds) with
    | nil =>
      by_cases he : remaining.isEmpty
      · refine ⟨[], ?_⟩
        simp only [kahnAux]
        rw [hfilt]
        dsimp only
        rw [if_pos he]
      · exfalso
        have hremne : remaining ≠ [] := by simpa using he
        have hneC : remaining.map Feature.id ≠ [] := by simpa using hremne
        have hclC : ∀ c ∈ remaining.map Feature.id, ∃ f ∈ remaining, f.id = c ∧
            ∃ d ∈ f.dependsOn, d ∈ remaining.map Feature.id := by
          intro c hc
          obtain ⟨f, hf, hfid⟩ := List.mem_map.mp hc
          have hnotrdy : ¬(ready doneIds f = true) := List.filter_eq_nil_iff.mp hfilt f hf
          have hex : ∃ d ∈ f.dependsOn, ¬(doneIds.contains d = true) := by
            by_contra hall
            push_neg at hall
            exact hnotrdy (List.all_eq_true.mpr (fun d hd => hall d hd))
          obtain ⟨d, hd, hdnot⟩ := hex
          have hdC : d ∈ remaining.map Feature.id := by
            rcases hdeps f hf d hd with hmem | hmem
            · exact absurd (List.elem_iff.mpr hmem) hdnot
            · exact hmem
          exact ⟨f, hf, hfid, d, hd, hdC⟩
        obtain ⟨l, hcyc⟩ := closed_set_cycle hnd hneC hclC
        exact hacy l hcyc
    | cons r rs =>
      have hrmem : r ∈ remaining.filter (ready doneIds) := by
        rw [hfilt]; exact List.mem_cons_self r rs
      have hrrem := (List.mem_filter.mp hrmem).1
      have hrrdy := (List.mem_filter.mp hrmem).2
      have hlt : (remaining.filter (fun f => !(ready doneIds f))).length
          < remaining.length := by
        apply List.length_filter_lt_length_iff_exists.mpr
        exact ⟨r, hrrem, by simp [hrrdy]⟩
      have hlen2 : (remaining.filter (fun f => !(ready doneIds f))).length ≤ fuel :=
        Nat.lt_succ_iff.mp (lt_of_lt_of_le hlt hlen)
      have hnd2 : ((remaining.filter (fun f => !(ready doneIds f))).map Feature.id).Nodup :=
        ((List.filter_sublist _).map _).nodup hnd
      have hdeps2 : ∀ f ∈ remaining.filter (fun f => !(ready doneIds f)),
          ∀ d ∈ f.dependsOn, d ∈ doneIds ++ (r :: rs).map Feature.id ∨
            d ∈ (remaining.filter (fun f => !(ready doneIds f))).map Feature.id := by
        intro f hf d hd
        have hfrem := (List.mem_filter.mp hf).1
        rcases hdeps f hfrem d hd with hmem | hmem
        · exact Or.inl (List.mem_append_left _ hmem)
        · obtain ⟨g, hg, hgid⟩ := List.mem_map.mp hmem
          cases hr : ready doneIds g
          · refine Or.inr ?_
            rw [← hgid]
            exact List.mem_map_of_mem _ (List.mem_filter.mpr ⟨hg, by simp [hr]⟩)
          · refine Or.inl (List.mem_append_right _ ?_)
            rw [← hgid, ← hfilt]
            exact List.mem_map_of_mem _ (List.mem_filter.mpr ⟨hg, hr⟩)
      have hacy2 : ∀ l, ¬ isCycle (remaining.filter (fun f => !(ready doneIds f))) l := by
        intro l hc
        exact hacy l (isCycle_mono (fun f hf => (List.mem_filter.mp hf).1) hc)
      obtain ⟨order2, h2⟩ := ih _ _ hlen2 hnd2 hdeps2 hacy2
      refine ⟨(r :: rs) ++ order2, ?_⟩
      simp only [kahnAux]
      rw [hfilt]
      dsimp only
      rw [h2]

theorem kahn_complete {fs : List Feature}
    (hnd : (allIds fs).Nodup)
    (hdeps : ∀ f ∈ fs, ∀ d ∈ f.dependsOn, d ∈ allIds fs)
    (hacy : acyclic fs) :
    ∃ order, kahn fs = Except.ok order := by
  apply kahnAux_complete fs.length fs [] (le_refl _) hnd
  · intro f hf d hd
    exact Or.inr (hdeps f hf d hd)
  · exact hacy

/-! ## Forward pass invariants -/

theorem esFrom_congr (ps : Int) {m1 m2 : TimeMap} {deps : List Nat}
    (h : ∀ d ∈ deps, m1.lookup d = m2.lookup d) :
    esFrom ps m1 deps = esFrom ps m2 deps := by
  have hmap : deps.map (lookupEF ps m1) = deps.map (lookupEF ps m2) :=
    List.map_congr_left (fun d hd => by rw [lookupEF, lookupEF, h d hd])
  simp only [esFrom]
  rw [hmap]

theorem forward_spec (ps : Int) : ∀ (l : List Feature) (m : TimeMap),
    depsBefore (m.map Prod.fst) l →
    (m.map Prod.fst ++ l.map Feature.id).Nodup →
    (forward ps l m).map Prod.fst = m.map Prod.fst ++ l.map Feature.id
    ∧ (∀ k v, m.lookup k = some v → (forward ps l m).lookup k = some v)
    ∧ (∀ f ∈ l, (forward ps l m).lookup f.id =
        some (esFrom ps (forward ps l m) f.dependsOn,
          esFrom ps (forward ps l m) f.dependsOn + f.durationDays)) := by
  intro l
  induction l with
  | nil =>
    intro m _ _
    refine ⟨by simp [forward], fun k v h => h, by simp⟩
  | cons f rest ih =>
    intro m hdb hnd
    obtain ⟨hdeps, hdb2⟩ := hdb
    have hforward : forward ps (f :: rest) m =
        forward ps rest (m ++ [(f.id, esFrom ps m f.dependsOn,
          esFrom ps m f.dependsOn + f.durationDays)]) := by
      simp only [forward]
    have hkeys2 : (m ++ [(f.id, esFrom ps m f.dependsOn,
        esFrom ps m f.dependsOn + f.durationDays)]).map Prod.fst
        = m.map Prod.fst ++ [f.id] := by simp
    have hdb2m : depsBefore ((m ++ [(f.id, esFrom ps m f.dependsOn,
        esFrom ps m f.dependsOn + f.durationDays)]).map Prod.fst) rest := by
      rw [hkeys2]; exact hdb2
    have hnd2 : ((m ++ [(f.id, esFrom ps m f.dependsOn,
        esFrom ps m f.dependsOn + f.durationDays)]).map Prod.fst
        ++ rest.map Feature.id).Nodup := by
      rw [hkeys2]
      simpa [List.append_assoc] using hnd
    obtain ⟨ihkeys, ihstable, ihrec⟩ := ih _ hdb2m hnd2
    have hfid_not : f.id ∉ m.map Prod.fst := by
      intro hmem
      have hdisj := List.disjoint_of_nodup_append hnd
      exact hdisj hmem (by simp)
    have hm2f : (m ++ [(f.id, esFrom ps m f.dependsOn,
        esFrom ps m f.dependsOn + f.durationDays)]).lookup f.id
        = some (esFrom ps m f.dependsOn, esFrom ps m f.dependsOn + f.durationDays) := by
      rw [lookup_append]
      rw [(lookup_none_iff m f.id).mpr hfid_not]
      simp [List.lookup_cons]
    have hstable2 : ∀ k v, m.lookup k = some v →
        (m ++ [(f.id, esFrom ps m f.dependsOn,
          esFrom ps m f.dependsOn + f.durationDays)]).lookup k = some v := by
      intro k v h
      exact lookup_append_left _ h
    refine ⟨?_, ?_, ?_⟩
    · rw [hforward, ihkeys, hkeys2]
      simp [List.append_assoc]
    · intro k v h
      rw [hforward]
      exact ihstable k v (hstable2 k v h)
    · intro g hg
      rcases List.mem_cons.mp hg with hg | hg
      · subst hg
      -- the processed entry of g keeps its value in the final map, and the
      -- dependency lookups it was computed from are stable as well
        have hlookupf : (forward ps (g :: rest) m).lookup g.id =
            some (esFrom ps m g.dependsOn, esFrom ps m g.dependsOn + g.durationDays) := by
          rw [hforward]
          exact ihstable _ _ hm2f
        have hcong : esFrom ps (forward ps (g :: rest) m) g.dependsOn
            = esFrom ps m g.dependsOn := by
          apply esFrom_congr
          intro d hd
          have hdm : d ∈ m.map Prod.fst := hdeps d hd
          obtain ⟨v, hv⟩ := Option.isSome_iff_exists.mp ((lookup_isSome_iff m d).mpr hdm)
          rw [hforward] at *
          rw [ihstable d v (hstable2 d v hv), hv]
        rw [hlookupf, hcong]
      · rw [hforward]
        exact ihrec g hg

/-! ## Backward pass invariants -/

theorem foldl_max_snd_ge : ∀ (m : TimeMap) (a : Int),
    a ≤ m.foldl (fun acc kv => max acc kv.2.2) a ∧
    ∀ kv ∈ m, kv.2.2 ≤ m.foldl (fun acc kv => max acc kv.2.2) a := by
  intro m
  induction m with
  | nil => intro a; exact ⟨le_refl _, by simp⟩
  | cons x xs ih =>
    intro a
    rw [List.foldl_cons]
    obtain ⟨h1, h2⟩ := ih (max a x.2.2)
    refine ⟨le_trans (le_max_left _ _) h1, ?_⟩
    intro kv hkv
    rcases List.mem_cons.mp hkv with hkv | hkv
    · subst hkv; exact le_trans (le_max_right _ _) h1
    · exact h2 kv hkv

theorem le_projectFinish (ps : Int) (m : TimeMap) :
    ps ≤ projectFinish ps m ∧ ∀ kv ∈ m, kv.2.2 ≤ projectFinish ps m :=
  foldl_max_snd_ge m ps

theorem lfFrom_ge {pf : Int} {m : LateMap} {deps : List Nat} {c : Int}
    (hpf : c ≤ pf) (hall : ∀ d ∈ deps, c ≤ lookupLS pf m d) :
    c ≤ lfFrom pf m deps := by
  simp only [lfFrom]
  cases hmap : deps.map (lookupLS pf m) with
  | nil => exact hpf
  | cons x xs =>
    have hub : ∀ y ∈ x :: xs, c ≤ y := by
      intro y hy
      rw [← hmap] at hy
      obtain ⟨d, hd, hdy⟩ := List.mem_map.mp hy
      exact hdy ▸ hall d hd
    exact hub _ (foldl_min_mem xs x)

theorem depsBefore_split : ∀ (order : List Feature) (done : List Nat),
    depsBefore done order → ∀ (o1 : List Feature) (g : Feature) (o2 : List Feature),
      order = o1 ++ g :: o2 → ∀ d ∈ g.dependsOn, d ∈ done ++ o1.map Feature.id := by
  intro order
  induction order with
  | nil =>
    intro done _ o1 g o2 heq
    exact absurd heq.symm (by simp)
  | cons f rest ih =>
    intro done hdb o1 g o2 heq d hd
    cases o1 with
    | nil =>
      have hfg : f = g := by simpa using congrArg (fun l => l.headD f) heq
      subst hfg
      simpa using hdb.1 d hd
    | cons a o1t =>
      have hfa : f = a := by simpa using congrArg (fun l => l.headD f) heq
      subst hfa
      have hrest : rest = o1t ++ g :: o2 := by
        have := congrArg List.tail heq
        simpa using this
      have hin := ih (done ++ [f.id]) hdb.2 o1t g o2 hrest d hd
      simpa [List.append_assoc] using hin

theorem dependent_after {order : List Feature} (hnd : (order.map Feature.id).Nodup)
    (hdb : depsBefore [] order) {L P : List Feature} {f : Feature}
    (hsplit : order = L ++ f :: P) {g : Feature} (hg : g ∈ order)
    (hdep : f.id ∈ g.dependsOn) : g ∈ P := by
  rw [hsplit] at hg
  rcases List.mem_append.mp hg with hgL | hgfp
  · exfalso
    obtain ⟨A, B, hAB⟩ := List.append_of_mem hgL
    have horder : order = A ++ g :: (B ++ f :: P) := by
      rw [hsplit, hAB]
      simp
    have hin := depsBefore_split order [] hdb A g (B ++ f :: P) horder f.id hdep
    have hinA : f.id ∈ A.map Feature.id := by simpa using hin
    have hndA : ((A.map Feature.id) ++
        (g.id :: (B.map Feature.id ++ f.id :: P.map Feature.id))).Nodup := by
      have : order.map Feature.id = (A.map Feature.id) ++
          (g.id :: (B.map Feature.id ++ f.id :: P.map Feature.id)) := by
        rw [horder]; simp
      rw [← this]
      exact hnd
    exact List.disjoint_of_nodup_append hndA hinA (by simp)
  · rcases List.mem_cons.mp hgfp with hgf | hgP
    · exfalso
      subst hgf
      have hin := depsBefore_split order [] hdb L g P hsplit g.id hdep
      have hinL : g.id ∈ L.map Feature.id := by simpa using hin
      have hndL : ((L.map Feature.id) ++ (g.id :: P.map Feature.id)).Nodup := by
        have : order.map Feature.id = (L.map Feature.id) ++ (g.id :: P.map Feature.id) := by
          rw [hsplit]; simp
        rw [← this]
        exact hnd
      exact List.disjoint_of_nodup_append hndL hinL (by simp)
    · exact hgP

theorem backward_spec (ps pf : Int) (order : List Feature) (em : TimeMap)
    (hnd : (order.map Feature.id).Nodup)
    (hdb : depsBefore [] order)
    (hpf : ∀ f ∈ order, lookupEF ps em f.id ≤ pf)
    (hef : ∀ f ∈ order, lookupEF ps em f.id = lookupES ps em f.id + f.durationDays)
    (hes : ∀ g ∈ order, ∀ d ∈ g.dependsOn, lookupEF ps em d ≤ lookupES ps em g.id) :
    ∀ (l pre : List Feature) (lm : LateMap),
      order = l.reverse ++ pre.reverse →
      lm.map Prod.fst = pre.map Feature.id →
      (∀ kv ∈ lm, ∃ g ∈ order, g.id = kv.1 ∧ kv.2.1 = kv.2.2 - g.durationDays ∧
        lookupEF ps em kv.1 ≤ kv.2.2) →
      (backward pf order l lm).map Prod.fst = pre.map Feature.id ++ l.map Feature.id
      ∧ (∀ kv ∈ backward pf order l lm, ∃ g ∈ order, g.id = kv.1 ∧
          kv.2.1 = kv.2.2 - g.durationDays ∧ lookupEF ps em kv.1 ≤ kv.2.2) := by
  intro l
  induction l with
  | nil =>
    intro pre lm _ hkeys hinv
    exact ⟨by simpa [backward] using hkeys, by simpa [backward] using hinv⟩
  | cons f lt ih =>
    intro pre lm hsplit hkeys hinv
    have hsplit2 : order = lt.reverse ++ (f :: pre.reverse) := by
      rw [hsplit]
      simp
    have hford : f ∈ order := by
      rw [hsplit2]
      exact List.mem_append_right _ (List.mem_cons_self _ _)
    have hbound : lookupEF ps em f.id ≤ lfFrom pf lm (dependentsOf order f.id) := by
      apply lfFrom_ge (hpf f hford)
      intro did hdid
      obtain ⟨g, hgfilt, hgid⟩ := List.mem_map.mp hdid
      have hg : g ∈ order := (List.mem_filter.mp hgfilt).1
      have hdep : f.id ∈ g.dependsOn := List.elem_iff.mp (List.mem_filter.mp hgfilt).2
      have hgP : g ∈ pre.reverse := dependent_after hnd hdb hsplit2 hg hdep
      have hgpre : g ∈ pre := List.mem_reverse.mp hgP
      have hgkey : g.id ∈ lm.map Prod.fst := by
        rw [hkeys]
        exact List.mem_map_of_mem _ hgpre
      obtain ⟨e, he⟩ := Option.isSome_iff_exists.mp ((lookup_isSome_iff lm g.id).mpr hgkey)
      obtain ⟨ls0, lf0⟩ := e
      obtain ⟨g2, hg2, hg2id, he1, he2⟩ := hinv (g.id, ls0, lf0) (mem_of_lookup he)
      dsimp only at hg2id he1 he2
      have hg2g : g2 = g := List.inj_on_of_nodup_map hnd hg2 hg hg2id
      subst hg2g
      have hls : lookupLS pf lm did = ls0 := by
        rw [← hgid]
        simp only [lookupLS]
        rw [he]
      rw [hls, he1]
      have hefg := hef g2 hg
      have hesg := hes g2 hg f.id hdep
      omega
    have hnewsplit : order = lt.reverse ++ (pre ++ [f]).reverse := by
      rw [hsplit2]
      simp
    have hnewkeys : (lm ++ [(f.id, lfFrom pf lm (dependentsOf order f.id) - f.durationDays,
        lfFrom pf lm (dependentsOf order f.id))]).map Prod.fst
        = (pre ++ [f]).map Feature.id := by
      simp [hkeys]
    have hnewinv : ∀ kv ∈ lm ++ [(f.id, lfFrom pf lm (dependentsOf order f.id) - f.durationDays,
        lfFrom pf lm (dependentsOf order f.id))], ∃ g ∈ order, g.id = kv.1 ∧
        kv.2.1 = kv.2.2 - g.durationDays ∧ lookupEF ps em kv.1 ≤ kv.2.2 := by
      intro kv hkv
      rcases List.mem_append.mp hkv with hkv | hkv
      · exact hinv kv hkv
      · have hkveq : kv = (f.id, lfFrom pf lm (dependentsOf order f.id) - f.durationDays,
            lfFrom pf lm (dependentsOf order f.id)) := by simpa using hkv
        subst hkveq
        exact ⟨f, hford, rfl, rfl, hbound⟩
    obtain ⟨hk, hi⟩ := ih (pre ++ [f]) _ hnewsplit hnewkeys hnewinv
    have hstep : backward pf order (f :: lt) lm =
        backward pf order lt (lm ++ [(f.id,
          lfFrom pf lm (dependentsOf order f.id) - f.durationDays,
          lfFrom pf lm (dependentsOf order f.id))]) := by
      simp only [backward]
    constructor
    · rw [hstep, hk]
      simp
    · intro kv hkv
      rw [hstep] at hkv
      exact hi kv hkv

/-! ## From a successful schedule run to the two-pass facts -/

theorem esFrom_ub (ps : Int) (m : TimeMap) (deps : List Nat) :
    ∀ d ∈ deps, lookupEF ps m d ≤ esFrom ps m deps := by
  intro d hd
  simp only [esFrom]
  cases hmap : deps.map (lookupEF ps m) with
  | nil =>
    exact absurd (List.map_eq_nil_iff.mp hmap ▸ hd) (List.not_mem_nil d)
  | cons x xs =>
    apply le_foldl_max xs x
    rw [← hmap]
    exact List.mem_map_of_mem _ hd

theorem esFrom_mem (ps : Int) (m : TimeMap) (deps : List Nat) (h : deps ≠ []) :
    esFrom ps m deps ∈ deps.map (lookupEF ps m) := by
  simp only [esFrom]
  cases hmap : deps.map (lookupEF ps m) with
  | nil => exact absurd (List.map_eq_nil_iff.mp hmap) h
  | cons x xs => exact foldl_max_mem xs x

theorem schedule_ok_inv {ps : Int} {fs : List Feature} {r : TimelineResult}
    (h : schedule ps fs = Except.ok r) :
    findUnknownDep fs = none ∧ findInvalidDuration fs = none ∧
    ∃ order, kahn fs = Except.ok order ∧ r = buildResult ps fs order := by
  rw [schedule] at h
  cases h1 : findUnknownDep fs with
  | some pr => rw [h1] at h; simp at h
  | none =>
    rw [h1] at h
    dsimp only at h
    cases h2 : findInvalidDuration fs with
    | some fid => rw [h2] at h; simp at h
    | none =>
      rw [h2] at h
      dsimp only at h
      cases h3 : kahn fs with
      | error ids => rw [h3] at h; simp at h
      | ok order =>
        rw [h3] at h
        dsimp only at h
        exact ⟨rfl, rfl, order, rfl, by simpa using h.symm⟩

theorem schedule_ok_fields {ps : Int} {fs : List Feature} {r : TimelineResult}
    (hnd : (allIds fs).Nodup) (h : schedule ps fs = Except.ok r) :
    ∃ (order : List Feature),
      kahn fs = Except.ok order ∧
      r = buildResult ps fs order ∧
      r.features = fs.map (mkScheduled ps (forward ps order [])
        (backward (projectFinish ps (forward ps order [])) order order.reverse [])) ∧
      ∀ f ∈ fs,
        ∃ es ls lf : Int,
          (forward ps order []).lookup f.id = some (es, es + f.durationDays) ∧
          (backward (projectFinish ps (forward ps order [])) order
            order.reverse []).lookup f.id = some (ls, lf) ∧
          es = esFrom ps (forward ps order []) f.dependsOn ∧
          ls = lf - f.durationDays ∧
          es + f.durationDays ≤ lf ∧
          mkScheduled ps (forward ps order [])
            (backward (projectFinish ps (forward ps order [])) order order.reverse []) f =
            ⟨f.id, f.durationDays, f.dependsOn, es, es + f.durationDays, ls, lf,
              ls - es, decide (ls - es = 0)⟩ := by
  obtain ⟨hu, hi, order, hk, hr⟩ := schedule_ok_inv h
  obtain ⟨hperm, hdb⟩ := kahnAux_ok fs.length fs [] order hk
  have hndo : (order.map Feature.id).Nodup := ((hperm.map Feature.id).symm).nodup hnd
  obtain ⟨hkeys, _, hrec⟩ := forward_spec ps order [] hdb (by simpa using hndo)
  have hpf : ∀ f ∈ order, lookupEF ps (forward ps order []) f.id
      ≤ projectFinish ps (forward ps order []) := by
    intro f hf
    have hlook := hrec f hf
    have hmem := mem_of_lookup hlook
    have := (le_projectFinish ps (forward ps order [])).2 _ hmem
    rw [lookupEF, hlook]
    exact this
  have hef : ∀ f ∈ order, lookupEF ps (forward ps order []) f.id
      = lookupES ps (forward ps order []) f.id + f.durationDays := by
    intro f hf
    have hlook := hrec f hf
    rw [lookupEF, lookupES, hlook]
  have hes : ∀ g ∈ order, ∀ d ∈ g.dependsOn,
      lookupEF ps (forward ps order []) d ≤ lookupES ps (forward ps order []) g.id := by
    intro g hg d hd
    have hlook := hrec g hg
    rw [lookupES, hlook]
    exact esFrom_ub ps _ g.dependsOn d hd
  obtain ⟨hlmk, hlminv⟩ := backward_spec ps (projectFinish ps (forward ps order []))
    order (forward ps order []) hndo hdb hpf hef hes order.reverse [] []
    (by simp) (by simp) (by simp)
  have hfeat : r.features = fs.map (mkScheduled ps (forward ps order [])
      (backward (projectFinish ps (forward ps order [])) order order.reverse [])) := by
    rw [hr]
    simp only [buildResult]
  refine ⟨order, hk, hr, hfeat, ?_⟩
  intro f hf
  have hford : f ∈ order := hperm.mem_iff.mpr hf
  have hemf := hrec f hford
  have hfidlm : f.id ∈ (backward (projectFinish ps (forward ps order [])) order
      order.reverse []).map Prod.fst := by
    rw [hlmk]
    simpa using List.mem_map_of_mem Feature.id (List.mem_reverse.mpr hford)
  obtain ⟨e, he⟩ := Option.isSome_iff_exists.mp ((lookup_isSome_iff _ f.id).mpr hfidlm)
  obtain ⟨ls0, lf0⟩ := e
  obtain ⟨g2, hg2, hg2id, he1, he2⟩ := hlminv (f.id, ls0, lf0) (mem_of_lookup he)
  dsimp only at hg2id he1 he2
  have hg2f : g2 = f := List.inj_on_of_nodup_map hndo hg2 hford hg2id
  rw [hg2f] at he1
  refine ⟨esFrom ps (forward ps order []) f.dependsOn, ls0, lf0, hemf, he, rfl, he1, ?_, ?_⟩
  · rw [lookupEF, hemf] at he2
    exact he2
  · simp only [mkScheduled, hemf, he]
    rfl

/-! ## Dependency chain analyzer invariants -/

theorem bestDep_spec (m : ChainMap) : ∀ (deps : List Nat), deps ≠ [] →
    ∃ b ∈ deps, bestDep m deps = some b ∧ ∀ d ∈ deps, depthOf m d ≤ depthOf m b := by
  intro deps
  induction deps with
  | nil => intro h; exact absurd rfl h
  | cons d ds ih =>
    intro _
    cases hb : bestDep m ds with
    | none =>
      have hds : ds = [] := by
        cases ds with
        | nil => rfl
        | cons x xs =>
          obtain ⟨b, _, hbs, _⟩ := ih (List.cons_ne_nil x xs)
          rw [hb] at hbs
          exact absurd hbs (by simp)
      subst hds
      refine ⟨d, List.mem_cons_self _ _, ?_, ?_⟩
      · simp [bestDep]
      · intro x hx
        have : x = d := by simpa using hx
        simp [this]
    | some b =>
      have hds : ds ≠ [] := by
        intro hnil
        rw [hnil] at hb
        simp [bestDep] at hb
      obtain ⟨b2, hb2mem, hb2eq, hb2ub⟩ := ih hds
      have hbb2 : b2 = b := by
        rw [hb] at hb2eq
        exact (Option.some.inj hb2eq).symm
      subst hbb2
      by_cases hgt : depthOf m b2 > depthOf m d
      · refine ⟨b2, List.mem_cons_of_mem _ hb2mem, ?_, ?_⟩
        · simp only [bestDep]
          rw [hb]
          dsimp only
          rw [if_pos hgt]
        · intro x hx
          rcases List.mem_cons.mp hx with hx | hx
          · subst hx; exact le_of_lt hgt
          · exact hb2ub x hx
      · refine ⟨d, List.mem_cons_self _ _, ?_, ?_⟩
        · simp only [bestDep]
          rw [hb]
          dsimp only
          rw [if_neg hgt]
        · intro x hx
          rcases List.mem_cons.mp hx with hx | hx
          · subst hx
            exact le_refl _
          · exact le_trans (hb2ub x hx) (not_lt.mp hgt)

theorem bestDep_nil (m : ChainMap) : bestDep m [] = none := rfl

theorem depthOf_eq_of_lookup {m1 m2 : ChainMap} {d : Nat}
    (h : m1.lookup d = m2.lookup d) : depthOf m1 d = depthOf m2 d := by
  rw [depthOf, depthOf, h]

theorem chainOf_eq_of_lookup {m1 m2 : ChainMap} {d : Nat}
    (h : m1.lookup d = m2.lookup d) : chainOf m1 d = chainOf m2 d := by
  rw [chainOf, chainOf, h]

theorem chainFold_spec : ∀ (l : List Feature) (m : ChainMap),
    depsBefore (m.map Prod.fst) l →
    (m.map Prod.fst ++ l.map Feature.id).Nodup →
    (chainFold l m).map Prod.fst = m.map Prod.fst ++ l.map Feature.id
    ∧ (∀ k v, m.lookup k = some v → (chainFold l m).lookup k = some v)
    ∧ ∀ f ∈ l,
        (f.dependsOn = [] → (chainFold l m).lookup f.id = some ([f.id], 0)) ∧
        (f.dependsOn ≠ [] → ∃ b ∈ f.dependsOn,
          (chainFold l m).lookup f.id = some (chainOf (chainFold l m) b ++ [f.id],
            depthOf (chainFold l m) b + 1) ∧
          ∀ d ∈ f.dependsOn, depthOf (chainFold l m) d ≤ depthOf (chainFold l m) b) := by
  intro l
  induction l with
  | nil =>
    intro m _ _
    exact ⟨by simp [chainFold], fun k v h => h, by simp⟩
  | cons f rest ih =>
    intro m hdb hnd
    obtain ⟨hdeps, hdb2⟩ := hdb
    have hfid_not : f.id ∉ m.map Prod.fst := by
      intro hmem
      exact List.disjoint_of_nodup_append hnd hmem (by simp)
    -- the new entry appended for f, by cases on bestDep
    cases hbd : bestDep m f.dependsOn with
    | none =>
      have hdepnil : f.dependsOn = [] := by
        by_contra hne
        obtain ⟨b, _, hbeq, _⟩ := bestDep_spec m f.dependsOn hne
        rw [hbd] at hbeq
        exact absurd hbeq (by simp)
      have hstep : chainFold (f :: rest) m = chainFold rest (m ++ [(f.id, [f.id], 0)]) := by
        simp only [chainFold]
        rw [hbd]
      have hkeys2 : (m ++ [(f.id, ([f.id] : List Nat), (0 : Nat))]).map Prod.fst
          = m.map Prod.fst ++ [f.id] := by simp
      have hdb2m : depsBefore ((m ++ [(f.id, ([f.id] : List Nat), (0 : Nat))]).map Prod.fst)
          rest := by rw [hkeys2]; exact hdb2
      have hnd2 : ((m ++ [(f.id, ([f.id] : List Nat), (0 : Nat))]).map Prod.fst
          ++ rest.map Feature.id).Nodup := by
        rw [hkeys2]
        simpa [List.append_assoc] using hnd
      obtain ⟨ihkeys, ihstable, ihrec⟩ := ih _ hdb2m hnd2
      have hm2f : (m ++ [(f.id, ([f.id] : List Nat), (0 : Nat))]).lookup f.id
          = some ([f.id], 0) := by
        rw [lookup_append, (lookup_none_iff m f.id).mpr hfid_not]
        simp [List.lookup_cons]
      refine ⟨?_, ?_, ?_⟩
      · rw [hstep, ihkeys, hkeys2]
        simp [List.append_assoc]
      · intro k v h
        rw [hstep]
        exact ihstable k v (lookup_append_left _ h)
      · intro g hg
        rcases List.mem_cons.mp hg with hg | hg
        · subst hg
          refine ⟨fun _ => ?_, fun hne => absurd hdepnil hne⟩
          rw [hstep]
          exact ihstable _ _ hm2f
        · rw [hstep]
          exact ihrec g hg
    | some b =>
      have hdepne : f.dependsOn ≠ [] := by
        intro hnil
        rw [hnil] at hbd
        exact absurd hbd (by simp [bestDep_nil])
      obtain ⟨b2, hb2mem, hb2eq, hb2ub⟩ := bestDep_spec m f.dependsOn hdepne
      have hbb : b2 = b := by
        rw [hbd] at hb2eq
        exact (Option.some.inj hb2eq).symm
      subst hbb
      have hstep : chainFold (f :: rest) m
          = chainFold rest (m ++ [(f.id, chainOf m b2 ++ [f.id], depthOf m b2 + 1)]) := by
        simp only [chainFold]
        rw [hbd]
      have hkeys2 : (m ++ [(f.id, chainOf m b2 ++ [f.id], depthOf m b2 + 1)]).map Prod.fst
          = m.map Prod.fst ++ [f.id] := by simp
      have hdb2m : depsBefore ((m ++ [(f.id, chainOf m b2 ++ [f.id],
          depthOf m b2 + 1)]).map Prod.fst) rest := by rw [hkeys2]; exact hdb2
      have hnd2 : ((m ++ [(f.id, chainOf m b2 ++ [f.id],
          depthOf m b2 + 1)]).map Prod.fst ++ rest.map Feature.id).Nodup := by
        rw [hkeys2]
        simpa [List.append_assoc] using hnd
      obtain ⟨ihkeys, ihstable, ihrec⟩ := ih _ hdb2m hnd2
      have hm2f : (m ++ [(f.id, chainOf m b2 ++ [f.id], depthOf m b2 + 1)]).lookup f.id
          = some (chainOf m b2 ++ [f.id], depthOf m b2 + 1) := by
        rw [lookup_append, (lookup_none_iff m f.id).mpr hfid_not]
        simp [List.lookup_cons]
      -- lookups of the dependencies are stable from m to the final map
      have hdepstable : ∀ d ∈ f.dependsOn,
          (chainFold rest (m ++ [(f.id, chainOf m b2 ++ [f.id],
            depthOf m b2 + 1)])).lookup d = m.lookup d := by
        intro d hd
        have hdm : d ∈ m.map Prod.fst := hdeps d hd
        obtain ⟨v, hv⟩ := Option.isSome_iff_exists.mp ((lookup_isSome_iff m d).mpr hdm)
        rw [hv]
        exact ihstable d v (lookup_append_left _ hv)
      have hdepthcong : ∀ d ∈ f.dependsOn,
          depthOf (chainFold rest (m ++ [(f.id, chainOf m b2 ++ [f.id],
            depthOf m b2 + 1)])) d = depthOf m d :=
        fun d hd => depthOf_eq_of_lookup (hdepstable d hd)
      have hchaincong : ∀ d ∈ f.dependsOn,
          chainOf (chainFold rest (m ++ [(f.id, chainOf m b2 ++ [f.id],
            depthOf m b2 + 1)])) d = chainOf m d :=
        fun d hd => chainOf_eq_of_lookup (hdepstable d hd)
      refine ⟨?_, ?_, ?_⟩
      · rw [hstep, ihkeys, hkeys2]
        simp [List.append_assoc]
      · intro k v h
        rw [hstep]
        exact ihstable k v (lookup_append_left _ h)
      · intro g hg
        rcases List.mem_cons.mp hg with hg | hg
        · subst hg
          refine ⟨fun hnil => absurd hnil hdepne, fun _ => ?_⟩
          refine ⟨b2, hb2mem, ?_, ?_⟩
          · rw [hstep, hchaincong b2 hb2mem, hdepthcong b2 hb2mem]
            exact ihstable _ _ hm2f
          · intro d hd
            rw [hstep, hdepthcong d hd, hdepthcong b2 hb2mem]
            exact hb2ub d hd
        · rw [hstep]
          exact ihrec g hg

/-! ## Pairwise overlap analyzer invariants -/

theorem overlapDays_symm (a b : ScheduledFeature) : overlapDays a b = overlapDays b a := by
  rw [overlapDays, overlapDays,
    min_comm a.earliestFinish b.earliestFinish,
    max_comm a.earliestStart b.earliestStart]

theorem mentionsPair_comm (o : Overlap) (p q : Nat) :
    mentionsPair o p q = mentionsPair o q p := by
  rw [mentionsPair, mentionsPair, Bool.or_comm]

theorem overlaps_sound : ∀ (l : List ScheduledFeature) (o : Overlap),
    o ∈ calculateOverlaps l → 0 < o.overlapDays := by
  intro l
  induction l with
  | nil => intro o h; simp [calculateOverlaps] at h
  | cons x xs ih =>
    intro o h
    rw [calculateOverlaps] at h
    rcases List.mem_append.mp h with h | h
    · obtain ⟨y, hy, hyo⟩ := List.mem_map.mp h
      have hpos := (List.mem_filter.mp hy).2
      rw [← hyo]
      simpa using hpos
    · exact ih o h

theorem overlaps_ids : ∀ (l : List ScheduledFeature) (o : Overlap),
    o ∈ calculateOverlaps l →
    o.feature1 ∈ l.map ScheduledFeature.id ∧ o.feature2 ∈ l.map ScheduledFeature.id := by
  intro l
  induction l with
  | nil => intro o h; simp [calculateOverlaps] at h
  | cons x xs ih =>
    intro o h
    rw [calculateOverlaps] at h
    rcases List.mem_append.mp h with h | h
    · obtain ⟨y, hy, hyo⟩ := List.mem_map.mp h
      have hyxs : y ∈ xs := (List.mem_filter.mp hy).1
      rw [← hyo]
      exact ⟨by simp, List.mem_cons_of_mem _ (List.mem_map_of_mem _ hyxs)⟩
    · obtain ⟨h1, h2⟩ := ih o h
      exact ⟨List.mem_cons_of_mem _ h1, List.mem_cons_of_mem _ h2⟩

theorem overlaps_filter_absent {xs : List ScheduledFeature} {p q : Nat}
    (hp : p ∉ xs.map ScheduledFeature.id) :
    (calculateOverlaps xs).filter (fun o => mentionsPair o p q) = [] := by
  rw [List.filter_eq_nil_iff]
  intro o ho
  obtain ⟨h1, h2⟩ := overlaps_ids xs o ho
  simp only [mentionsPair, Bool.or_eq_true, Bool.and_eq_true, beq_iff_eq]
  rintro (⟨hf1, _⟩ | ⟨_, hf2⟩)
  · exact hp (hf1 ▸ h1)
  · exact hp (hf2 ▸ h2)

theorem filter_key_unique {xs : List ScheduledFeature}
    (hnd : (xs.map ScheduledFeature.id).Nodup) {b : ScheduledFeature} (hb : b ∈ xs)
    (q : ScheduledFeature → Bool) :
    xs.filter (fun y => (y.id == b.id) && q y) = if q b then [b] else [] := by
  induction xs with
  | nil => cases hb
  | cons z zs ih =>
    have hnd2 : (z.id :: zs.map ScheduledFeature.id).Nodup := by simpa using hnd
    obtain ⟨hndz, hndzs⟩ := List.nodup_cons.mp hnd2
    rw [List.filter_cons]
    rcases List.mem_cons.mp hb with hbz | hbzs
    · subst hbz
      have htail : zs.filter (fun y => (y.id == b.id) && q y) = [] := by
        rw [List.filter_eq_nil_iff]
        intro y hy
        simp only [Bool.and_eq_true, beq_iff_eq]
        rintro ⟨hyid, _⟩
        exact hndz (hyid ▸ List.mem_map_of_mem _ hy)
      rw [htail]
      cases hq : q b
      · simp [hq]
      · simp [hq]
    · have hzid : z.id ≠ b.id := by
        intro hzb
        exact hndz (hzb ▸ List.mem_map_of_mem _ hbzs)
      have hcond : ((z.id == b.id) && q z) = false := by
        simp [hzid]
      rw [hcond]
      simp only [Bool.false_eq_true, if_false]
      exact ih hndzs hbzs

theorem overlaps_pair : ∀ (l : List ScheduledFeature),
    (l.map ScheduledFeature.id).Nodup →
    ∀ a b : ScheduledFeature, a ∈ l → b ∈ l → a.id ≠ b.id →
    ((calculateOverlaps l).filter (fun o => mentionsPair o a.id b.id)).map
        Overlap.overlapDays =
      if 0 < overlapDays a b then [overlapDays a b] else [] := by
  intro l
  induction l with
  | nil => intro _ a b ha _ _; simp at ha
  | cons x xs ih =>
    intro hnd a b ha hb hne
    have hnd2 : (x.id :: xs.map ScheduledFeature.id).Nodup := by simpa using hnd
    obtain ⟨hndx, hndxs⟩ := List.nodup_cons.mp hnd2
    rw [calculateOverlaps, List.filter_append, List.map_append]
    rcases List.mem_cons.mp ha with hax | haxs
    · subst hax
      have hbxs : b ∈ xs := by
        rcases List.mem_cons.mp hb with hbx | hbxs
        · exact absurd (by rw [hbx]) hne
        · exact hbxs
      have hrec : (calculateOverlaps xs).filter
          (fun o => mentionsPair o a.id b.id) = [] := overlaps_filter_absent hndx
      have hblock : (((xs.filter (fun y => 0 < overlapDays a y)).map
          (fun y => (⟨a.id, y.id, overlapDays a y⟩ : Overlap))).filter
          (fun o => mentionsPair o a.id b.id)).map Overlap.overlapDays
          = if 0 < overlapDays a b then [overlapDays a b] else [] := by
        rw [List.filter_map]
        have hpred : ((xs.filter (fun y => 0 < overlapDays a y)).filter
            ((fun o => mentionsPair o a.id b.id) ∘
              (fun y => (⟨a.id, y.id, overlapDays a y⟩ : Overlap))))
            = (xs.filter (fun y => 0 < overlapDays a y)).filter
              (fun y => y.id == b.id) := by
          apply List.filter_congr
          intro y _
          simp [mentionsPair, hne]
        rw [hpred, List.filter_filter,
          filter_key_unique hndxs hbxs (fun y => decide (0 < overlapDays a y))]
        cases hq : decide (0 < overlapDays a b)
        · have hnot : ¬(0 < overlapDays a b) := of_decide_eq_false hq
          simp [hnot]
        · have hyes : 0 < overlapDays a b := of_decide_eq_true hq
          simp [hyes]
      rw [hrec, hblock]
      simp
    · rcases List.mem_cons.mp hb with hbx | hbxs
      · subst hbx
        have hane : b.id ≠ a.id := fun h2 => hne h2.symm
        have hrec : (calculateOverlaps xs).filter
            (fun o => mentionsPair o a.id b.id) = [] := by
          have hcomm : (calculateOverlaps xs).filter (fun o => mentionsPair o a.id b.id)
              = (calculateOverlaps xs).filter (fun o => mentionsPair o b.id a.id) := by
            apply List.filter_congr
            intro o _
            rw [mentionsPair_comm]
          rw [hcomm]
          exact overlaps_filter_absent hndx
        have hblock : (((xs.filter (fun y => 0 < overlapDays b y)).map
            (fun y => (⟨b.id, y.id, overlapDays b y⟩ : Overlap))).filter
            (fun o => mentionsPair o a.id b.id)).map Overlap.overlapDays
            = if 0 < overlapDays a b then [overlapDays a b] else [] := by
          rw [List.filter_map]
          have hpred : ((xs.filter (fun y => 0 < overlapDays b y)).filter
              ((fun o => mentionsPair o a.id b.id) ∘
                (fun y => (⟨b.id, y.id, overlapDays b y⟩ : Overlap))))
              = (xs.filter (fun y => 0 < overlapDays b y)).filter
                (fun y => y.id == a.id) := by
            apply List.filter_congr
            intro y _
            simp [mentionsPair, hane]
          rw [hpred, List.filter_filter,
            filter_key_unique hndxs haxs (fun y => decide (0 < overlapDays b y))]
          rw [overlapDays_symm a b]
          cases hq : decide (0 < overlapDays b a)
          · have hnot : ¬(0 < overlapDays b a) := of_decide_eq_false hq
            simp [hnot]
          · have hyes : 0 < overlapDays b a := of_decide_eq_true hq
            simp [hyes]
        rw [hrec, hblock]
        simp
      · have hblock : (((xs.filter (fun y => 0 < overlapDays x y)).map
            (fun y => (⟨x.id, y.id, overlapDays x y⟩ : Overlap))).filter
            (fun o => mentionsPair o a.id b.id)) = [] := by
          rw [List.filter_eq_nil_iff]
          intro o ho
          obtain ⟨y, _, hyo⟩ := List.mem_map.mp ho
          have hxa : x.id ≠ a.id := fun h2 =>
            hndx (h2 ▸ List.mem_map_of_mem _ haxs)
          have hxb : x.id ≠ b.id := fun h2 =>
            hndx (h2 ▸ List.mem_map_of_mem _ hbxs)
          rw [← hyo]
          simp [mentionsPair, hxa, hxb]
        rw [hblock]
        simp only [List.map_nil, List.nil_append]
        exact ih hndxs a b haxs hbxs hne

/-! ## Bridging the result accessors to the pass maps -/

theorem find?_scheduled_map (ps : Int) (em : TimeMap) (lm : LateMap)
    {fs : List Feature} (hnd : (allIds fs).Nodup) {g : Feature} (hg : g ∈ fs) :
    (fs.map (mkScheduled ps em lm)).find? (fun sf => sf.id == g.id)
      = some (mkScheduled ps em lm g) := by
  rw [List.find?_map]
  have hcomp : ((fun sf => sf.id == g.id) ∘ (mkScheduled ps em lm))
      = (fun f => f.id == g.id) := rfl
  rw [hcomp, find?_key_nodup Feature.id hnd hg]
  rfl

theorem find?_chains_map (M : ChainMap) {fs : List Feature}
    (hnd : (allIds fs).Nodup) {g : Feature} (hg : g ∈ fs) :
    (fs.map (fun f => (⟨f.id, chainOf M f.id, depthOf M f.id⟩ : DependencyChain))).find?
        (fun dc => dc.featureId == g.id)
      = some ⟨g.id, chainOf M g.id, depthOf M g.id⟩ := by
  rw [List.find?_map]
  have hcomp : ((fun dc => dc.featureId == g.id) ∘
      (fun f => (⟨f.id, chainOf M f.id, depthOf M f.id⟩ : DependencyChain)))
      = (fun f : Feature => f.id == g.id) := rfl
  rw [hcomp, find?_key_nodup Feature.id hnd hg]
  rfl

theorem depsKnown_of_none {fs : List Feature} (h : findUnknownDep fs = none) :
    ∀ f ∈ fs, ∀ d ∈ f.dependsOn, d ∈ allIds fs := by
  intro f hf d hd
  rw [findUnknownDep, List.findSome?_eq_none_iff] at h
  have hf2 := h f hf
  cases hfind : f.dependsOn.find? (fun x => !((allIds fs).contains x)) with
  | some d0 =>
    rw [hfind] at hf2
    simp at hf2
  | none =>
    have hnone := List.find?_eq_none.mp hfind d hd
    by_contra hnot
    apply hnone
    have hcf : (allIds fs).contains d = false := by
      cases hc : (allIds fs).contains d
      · rfl
      · exact absurd (List.elem_iff.mp hc) hnot
    rw [hcf]
    rfl

/-! ## The claims -/

/-- Claim C1: for every feature list forming a DAG with positive durations and
every projectStart, the forward pass of the critical-path calculator assigns,
in topological order, earliestStart(f) = projectStart when dependsOn(f) is
empty and otherwise the maximum of earliestFinish(d) over the dependencies,
with earliestFinish(f) = earliestStart(f) + duration(f); and the single
five-day feature starting at 2024-01-01 (day 0) gets
earliestStart = latestStart = day 0, earliestFinish = latestFinish = day 5
(2024-01-06), slackDays = 0, and is the sole critical-path member. -/
theorem claim_C1_forward_pass :
    (∀ (ps : Int) (fs : List Feature), validDAG fs →
      ∃ r, schedule ps fs = Except.ok r ∧
        ∀ f ∈ fs, ∃ sf ∈ r.features, sf.id = f.id ∧
          sf.earliestFinish = sf.earliestStart + f.durationDays ∧
          (f.dependsOn = [] → sf.earliestStart = ps) ∧
          (f.dependsOn ≠ [] →
            sf.earliestStart ∈ f.dependsOn.map (efOf r) ∧
            ∀ y ∈ f.dependsOn.map (efOf r), y ≤ sf.earliestStart)) ∧
    schedule 0 [sampleFeature1] = Except.ok sampleResult1 := by
  constructor
  · intro ps fs hdag
    obtain ⟨hnd, hdeps, hdur, hacy⟩ := hdag
    obtain ⟨order, hk⟩ := kahn_complete hnd hdeps hacy
    have hok : schedule ps fs = Except.ok (buildResult ps fs order) := by
      rw [schedule, findUnknownDep_none hdeps]
      dsimp only
      rw [findInvalidDuration_none hdur]
      dsimp only
      rw [hk]
    refine ⟨buildResult ps fs order, hok, ?_⟩
    obtain ⟨order2, _, _, hfeat, hfields⟩ := schedule_ok_fields hnd hok
    intro f hf
    obtain ⟨es, ls, lf, hem, hlm, hesf, hls, hle, hmkeq⟩ := hfields f hf
    refine ⟨mkScheduled ps (forward ps order2 [])
      (backward (projectFinish ps (forward ps order2 [])) order2 order2.reverse []) f,
      ?_, ?_, ?_, ?_, ?_⟩
    · rw [hfeat]
      exact List.mem_map_of_mem _ hf
    · rw [hmkeq]
    · rw [hmkeq]
    · intro hnil
      rw [hmkeq]
      dsimp only
      rw [hesf, hnil]
      rfl
    · intro hne
      have hmapeq : f.dependsOn.map (efOf (buildResult ps fs order))
          = f.dependsOn.map (lookupEF ps (forward ps order2 [])) := by
        apply List.map_congr_left
        intro d hd
        have hdin : d ∈ allIds fs := hdeps f hf d hd
        obtain ⟨g, hg, hgid⟩ := List.mem_map.mp hdin
        obtain ⟨esg, lsg, lfg, hemg, _, _, _, _, hmkg⟩ := hfields g hg
        rw [← hgid, efOf, hfeat, find?_scheduled_map ps _ _ hnd hg, hmkg]
        dsimp only
        rw [lookupEF, hemg]
      rw [hmkeq]
      dsimp only
      rw [hesf, hmapeq]
      exact ⟨esFrom_mem ps _ f.dependsOn hne,
        fun y hy => by
          obtain ⟨d, hd, hdy⟩ := List.mem_map.mp hy
          exact hdy ▸ esFrom_ub ps _ f.dependsOn d hd⟩
  · rfl

/-- Witness for claim C1 at the concrete no-dependency baseline input. -/
theorem claim_C1_forward_pass_witness :
    ∃ r, schedule 0 [sampleFeature1] = Except.ok r ∧
      ∀ f ∈ [sampleFeature1], ∃ sf ∈ r.features, sf.id = f.id ∧
        sf.earliestFinish = sf.earliestStart + f.durationDays ∧
        (f.dependsOn = [] → sf.earliestStart = 0) ∧
        (f.dependsOn ≠ [] →
          sf.earliestStart ∈ f.dependsOn.map (efOf r) ∧
          ∀ y ∈ f.dependsOn.map (efOf r), y ≤ sf.earliestStart) :=
  claim_C1_forward_pass.1 0 [sampleFeature1]
    ⟨by decide, by decide, by decide, acyclic_of_kahn_isOk (by decide) (by decide)⟩

/-- Claim C2: every scheduled feature produced from a valid DAG input has
slackDays = latestStart − earliestStart, slackDays nonnegative (nothing is
clamped: the value is proved nonnegative as computed), and is on the critical
path exactly when its slack is zero. -/
theorem claim_C2_slack_invariants (ps : Int) (fs : List Feature) (r : TimelineResult)
    (hnd : (allIds fs).Nodup) (hok : schedule ps fs = Except.ok r) :
    ∀ sf ∈ r.features,
      sf.slackDays = sf.latestStart - sf.earliestStart ∧
      0 ≤ sf.slackDays ∧
      (sf.isOnCriticalPath = true ↔ sf.slackDays = 0) := by
  obtain ⟨order, _, _, hfeat, hfields⟩ := schedule_ok_fields hnd hok
  intro sf hsf
  rw [hfeat] at hsf
  obtain ⟨f, hf, hmk⟩ := List.mem_map.mp hsf
  obtain ⟨es, ls, lf, _, _, _, hls, hle, hmkeq⟩ := hfields f hf
  rw [← hmk, hmkeq]
  refine ⟨rfl, ?_, ?_⟩
  · dsimp only
    omega
  · dsimp only
    exact decide_eq_true_iff

/-- Witness for claim C2 at the concrete no-dependency baseline input. -/
theorem claim_C2_slack_invariants_witness :
    (⟨1, 5, [], 0, 5, 0, 5, 0, true⟩ : ScheduledFeature).slackDays =
        (⟨1, 5, [], 0, 5, 0, 5, 0, true⟩ : ScheduledFeature).latestStart -
          (⟨1, 5, [], 0, 5, 0, 5, 0, true⟩ : ScheduledFeature).earliestStart ∧
      0 ≤ (⟨1, 5, [], 0, 5, 0, 5, 0, true⟩ : ScheduledFeature).slackDays ∧
      ((⟨1, 5, [], 0, 5, 0, 5, 0, true⟩ : ScheduledFeature).isOnCriticalPath = true ↔
        (⟨1, 5, [], 0, 5, 0, 5, 0, true⟩ : ScheduledFeature).slackDays = 0) :=
  claim_C2_slack_invariants 0 [sampleFeature1] sampleResult1 (by decide) (by rfl)
    ⟨1, 5, [], 0, 5, 0, 5, 0, true⟩ (by decide)

theorem cyclicFeatures_cycle : isCycle cyclicFeatures [0, 1, 2] :=
  ⟨List.Chain.cons ⟨⟨0, 1, [1]⟩, by decide, rfl, by decide⟩
    (List.Chain.cons ⟨⟨1, 1, [2]⟩, by decide, rfl, by decide⟩ List.Chain.nil),
   ⟨⟨2, 1, [0]⟩, by decide, rfl, by decide⟩⟩

/-- Claim C3: on a feature list whose ids are unique, whose dependencies all
resolve and whose durations are positive, any dependency cycle makes schedule
raise CircularDependency; the error lists every id of the cycle (so at least
one id on the cycle), and no result of any kind is returned. -/
theorem claim_C3_circular_dependency (ps : Int) (fs : List Feature) (l : List Nat)
    (hnd : (allIds fs).Nodup)
    (hdeps : ∀ f ∈ fs, ∀ d ∈ f.dependsOn, d ∈ allIds fs)
    (hdur : ∀ f ∈ fs, 0 < f.durationDays)
    (hcyc : isCycle fs l) :
    ∃ ids, schedule ps fs = Except.error (ScheduleError.circularDependency ids) ∧
      (∀ c ∈ l, c ∈ ids) ∧ l ≠ [] ∧ ∀ r, schedule ps fs ≠ Except.ok r := by
  obtain ⟨ids, hk, hsub⟩ := kahn_cycle_error hnd hcyc
  have hlne : l ≠ [] := by
    cases l with
    | nil => exact absurd hcyc (by simp [isCycle])
    | cons a rest => simp
  have hsched : schedule ps fs = Except.error (ScheduleError.circularDependency ids) := by
    rw [schedule, findUnknownDep_none hdeps]
    dsimp only
    rw [findInvalidDuration_none hdur]
    dsimp only
    rw [hk]
  refine ⟨ids, hsched, hsub, hlne, ?_⟩
  intro r hok
  rw [hsched] at hok
  simp at hok

/-- Witness for claim C3 at the concrete three-cycle input. -/
theorem claim_C3_circular_dependency_witness :
    ∃ ids, schedule 0 cyclicFeatures =
        Except.error (ScheduleError.circularDependency ids) ∧
      (∀ c ∈ [0, 1, 2], c ∈ ids) ∧ ([0, 1, 2] : List Nat) ≠ [] ∧
      ∀ r, schedule 0 cyclicFeatures ≠ Except.ok r :=
  claim_C3_circular_dependency 0 cyclicFeatures [0, 1, 2] (by decide) (by decide)
    (by decide) cyclicFeatures_cycle

/-- Claim C4: whenever some dependsOn entry references an id absent from the
input list, schedule raises UnknownDependency with a genuinely dangling id
and returns no schedule; the reference is never silently dropped. -/
theorem claim_C4_unknown_dependency (ps : Int) (fs : List Feature)
    (hdangling : ∃ f ∈ fs, ∃ d ∈ f.dependsOn, d ∉ allIds fs) :
    ∃ fid dep, schedule ps fs = Except.error (ScheduleError.unknownDependency fid dep) ∧
      dep ∉ allIds fs ∧ ∀ r, schedule ps fs ≠ Except.ok r := by
  obtain ⟨f, hf, d, hd, hdnot⟩ := hdangling
  have hcont : (allIds fs).contains d = false := by
    cases hc : (allIds fs).contains d
    · rfl
    · exact absurd (List.elem_iff.mp hc) hdnot
  have hsome : (findUnknownDep fs).isSome = true := by
    rw [findUnknownDep, List.findSome?_isSome_iff]
    refine ⟨f, hf, ?_⟩
    have hfind : (f.dependsOn.find? (fun x => !((allIds fs).contains x))).isSome = true := by
      rw [List.find?_isSome]
      exact ⟨d, hd, by rw [hcont]; rfl⟩
    obtain ⟨d0, hd0⟩ := Option.isSome_iff_exists.mp hfind
    rw [hd0]
    rfl
  obtain ⟨pr, hpr⟩ := Option.isSome_iff_exists.mp hsome
  obtain ⟨g, _, hgeq⟩ := List.exists_of_findSome?_eq_some hpr
  cases hfind : g.dependsOn.find? (fun x => !((allIds fs).contains x)) with
  | none =>
    rw [hfind] at hgeq
    simp at hgeq
  | some d0 =>
    rw [hfind] at hgeq
    have hpr2 : pr = (g.id, d0) := by simpa using hgeq.symm
    have hd0bang := @List.find?_some Nat (fun x => !((allIds fs).contains x))
      d0 g.dependsOn hfind
    have hd0not : d0 ∉ allIds fs := by
      intro hmem
      have hc2 : (allIds fs).contains d0 = true := List.elem_iff.mpr hmem
      dsimp only at hd0bang
      rw [hc2] at hd0bang
      simp at hd0bang
    have hsched : schedule ps fs =
        Except.error (ScheduleError.unknownDependency g.id d0) := by
      rw [schedule, hpr, hpr2]
    refine ⟨g.id, d0, hsched, hd0not, ?_⟩
    intro r hok
    rw [hsched] at hok
    simp at hok

/-- Witness for claim C4 at a concrete input with a dangling dependency. -/
theorem claim_C4_unknown_dependency_witness :
    ∃ fid dep, schedule 0 [⟨1, 5, [9]⟩] =
        Except.error (ScheduleError.unknownDependency fid dep) ∧
      dep ∉ allIds [⟨1, 5, [9]⟩] ∧ ∀ r, schedule 0 [⟨1, 5, [9]⟩] ≠ Except.ok r :=
  claim_C4_unknown_dependency 0 [⟨1, 5, [9]⟩]
    ⟨⟨1, 5, [9]⟩, by decide, 9, by decide, by decide⟩

/-- Claim C8: whenever some feature has a zero or negative duration (and the
dependency ids all resolve, so the earlier unknown-dependency validation does
not fire first), schedule raises the fatal InvalidDuration error naming an
input feature and produces no schedule. -/
theorem claim_C8_invalid_duration (ps : Int) (fs : List Feature)
    (hdeps : ∀ f ∈ fs, ∀ d ∈ f.dependsOn, d ∈ allIds fs)
    (hbad : ∃ f ∈ fs, f.durationDays ≤ 0) :
    ∃ fid, schedule ps fs = Except.error (ScheduleError.invalidDuration fid) ∧
      fid ∈ allIds fs ∧ ∀ r, schedule ps fs ≠ Except.ok r := by
  have hsome : (fs.find? (fun f => f.durationDays ≤ 0)).isSome = true := by
    rw [List.find?_isSome]
    obtain ⟨f, hf, hdur⟩ := hbad
    exact ⟨f, hf, by simpa using hdur⟩
  obtain ⟨g, hg⟩ := Option.isSome_iff_exists.mp hsome
  have hgmem := List.mem_of_find?_eq_some hg
  have hfid : findInvalidDuration fs = some g.id := by
    rw [findInvalidDuration, hg]
    rfl
  have hsched : schedule ps fs = Except.error (ScheduleError.invalidDuration g.id) := by
    rw [schedule, findUnknownDep_none hdeps]
    dsimp only
    rw [hfid]
  refine ⟨g.id, hsched, List.mem_map_of_mem _ hgmem, ?_⟩
  intro r hok
  rw [hsched] at hok
  simp at hok

/-- Witness for claim C8 at a concrete input with a zero duration. -/
theorem claim_C8_invalid_duration_witness :
    ∃ fid, schedule 0 [⟨1, 0, []⟩] =
        Except.error (ScheduleError.invalidDuration fid) ∧
      fid ∈ allIds [⟨1, 0, []⟩] ∧ ∀ r, schedule 0 [⟨1, 0, []⟩] ≠ Except.ok r :=
  claim_C8_invalid_duration 0 [⟨1, 0, []⟩] (by decide) ⟨⟨1, 0, []⟩, by decide, by decide⟩

/-- Claim C5: the engine is a pure deterministic function, so running it twice
on the same input produces identical output; and at an exact tie between the
two equal-length zero-slack paths of tieFeatures (both features have slack 0
and the same earliestStart) the deterministic tie-break selects by feature id,
yielding the path of feature 2 rather than feature 5. -/
theorem claim_C5_determinism :
    (∀ (ps : Int) (fs : List Feature), schedule ps fs = schedule ps fs) ∧
    (schedule 0 tieFeatures).toOption.map
        (fun r => (r.features.map ScheduledFeature.slackDays, r.criticalPath))
      = some ([0, 0], some ⟨[2], 3, 0, 3⟩) :=
  ⟨fun _ _ => rfl, rfl⟩

/-- Claim C6: on every successfully scheduled input the dependency chain
analyzer returns one entry per feature; an empty dependsOn yields depth 0 and
chain [f.id]; otherwise depth(f) = 1 + max over the dependencies of their
depth; the analyzer itself (buildDependencyChains) is a total function and
raises nothing; and on the linear chain A to B to C it reports depths
0, 1, 2 with each chain listing the full ancestor path. -/
theorem claim_C6_dependency_chains :
    (∀ (ps : Int) (fs : List Feature) (r : TimelineResult),
      (allIds fs).Nodup → schedule ps fs = Except.ok r →
      r.dependencyChains.length = fs.length ∧
      ∀ f ∈ fs, ∃ dc ∈ r.dependencyChains, dc.featureId = f.id ∧
        (f.dependsOn = [] → dc.depth = 0 ∧ dc.chain = [f.id]) ∧
        (f.dependsOn ≠ [] →
          dc.depth ∈ f.dependsOn.map (fun d => depthIn r d + 1) ∧
          ∀ y ∈ f.dependsOn.map (fun d => depthIn r d + 1), y ≤ dc.depth)) ∧
    schedule 0 chainFeatures = Except.ok chainResult := by
  constructor
  · intro ps fs r hnd hok
    obtain ⟨hu, _, order, hk, hr⟩ := schedule_ok_inv hok
    have hdeps := depsKnown_of_none hu
    obtain ⟨hperm, hdb⟩ := kahnAux_ok fs.length fs [] order hk
    have hndo : (order.map Feature.id).Nodup := ((hperm.map Feature.id).symm).nodup hnd
    obtain ⟨_, _, hrec⟩ := chainFold_spec order [] hdb (by simpa using hndo)
    have hchains : r.dependencyChains = fs.map (fun f =>
        (⟨f.id, chainOf (chainFold order []) f.id,
          depthOf (chainFold order []) f.id⟩ : DependencyChain)) := by
      rw [hr]
      simp only [buildResult, buildDependencyChains]
    have hdepthIn : ∀ d ∈ allIds fs, depthIn r d = depthOf (chainFold order []) d := by
      intro d hdin
      obtain ⟨g, hg, hgid⟩ := List.mem_map.mp hdin
      rw [← hgid, depthIn, hchains, find?_chains_map _ hnd hg]
    constructor
    · rw [hchains, List.length_map]
    · intro f hf
      have hford : f ∈ order := hperm.mem_iff.mpr hf
      refine ⟨⟨f.id, chainOf (chainFold order []) f.id,
        depthOf (chainFold order []) f.id⟩, ?_, rfl, ?_, ?_⟩
      · rw [hchains]
        exact List.mem_map_of_mem _ hf
      · intro hnil
        have hlook := (hrec f hford).1 hnil
        constructor
        · dsimp only
          rw [depthOf, hlook]
        · dsimp only
          rw [chainOf, hlook]
      · intro hne
        obtain ⟨b, hbmem, hlook, hub⟩ := (hrec f hford).2 hne
        have hdepthf : depthOf (chainFold order []) f.id
            = depthOf (chainFold order []) b + 1 := by
          rw [depthOf, hlook]
        have hmapeq : f.dependsOn.map (fun d => depthIn r d + 1)
            = f.dependsOn.map (fun d => depthOf (chainFold order []) d + 1) := by
          apply List.map_congr_left
          intro d hd
          rw [hdepthIn d (hdeps f hf d hd)]
        dsimp only
        rw [hdepthf, hmapeq]
        constructor
        · exact List.mem_map.mpr ⟨b, hbmem, rfl⟩
        · intro y hy
          obtain ⟨d, hd, hdy⟩ := List.mem_map.mp hy
          rw [← hdy]
          exact Nat.succ_le_succ (hub d hd)
  · rfl

/-- Witness for claim C6 at the concrete linear chain input. -/
theorem claim_C6_dependency_chains_witness :
    chainResult.dependencyChains.length = chainFeatures.length ∧
    ∀ f ∈ chainFeatures, ∃ dc ∈ chainResult.dependencyChains, dc.featureId = f.id ∧
      (f.dependsOn = [] → dc.depth = 0 ∧ dc.chain = [f.id]) ∧
      (f.dependsOn ≠ [] →
        dc.depth ∈ f.dependsOn.map (fun d => depthIn chainResult d + 1) ∧
        ∀ y ∈ f.dependsOn.map (fun d => depthIn chainResult d + 1), y ≤ dc.depth) :=
  claim_C6_dependency_chains.1 0 chainFeatures chainResult (by decide) (by rfl)

/-- Claim C7: overlapDays is exactly
max 0 (min earliestFinish − max earliestStart); every emitted overlap is
positive; for any two distinct scheduled features the overlaps list carries
the unordered pair exactly once with that value when it is positive and not
at all otherwise; the engine result uses exactly this scan; and the X
(days 1 to 10) versus Y (days 5 to 15) example yields a single entry of
six days. -/
theorem claim_C7_overlaps :
    (∀ a b : ScheduledFeature, overlapDays a b =
      max 0 (min a.earliestFinish b.earliestFinish -
        max a.earliestStart b.earliestStart)) ∧
    (∀ (l : List ScheduledFeature) (o : Overlap), o ∈ calculateOverlaps l →
      0 < o.overlapDays) ∧
    (∀ (l : List ScheduledFeature), (l.map ScheduledFeature.id).Nodup →
      ∀ a b : ScheduledFeature, a ∈ l → b ∈ l → a.id ≠ b.id →
      ((calculateOverlaps l).filter (fun o => mentionsPair o a.id b.id)).map
          Overlap.overlapDays =
        if 0 < overlapDays a b then [overlapDays a b] else []) ∧
    (∀ (ps : Int) (fs : List Feature) (r : TimelineResult),
      schedule ps fs = Except.ok r → r.overlaps = calculateOverlaps r.features) ∧
    (overlapDays sampleX sampleY = 6 ∧
      calculateOverlaps [sampleX, sampleY] = [⟨100, 200, 6⟩]) := by
  refine ⟨fun a b => rfl, overlaps_sound, overlaps_pair, ?_, by decide⟩
  intro ps fs r hok
  obtain ⟨_, _, order, _, hr⟩ := schedule_ok_inv hok
  rw [hr]
  simp only [buildResult]

/-- Witness for claim C7 at the concrete X and Y overlap example. -/
theorem claim_C7_overlaps_witness :
    (([sampleX, sampleY].map ScheduledFeature.id).Nodup) ∧
    ((calculateOverlaps [sampleX, sampleY]).filter
        (fun o => mentionsPair o sampleX.id sampleY.id)).map Overlap.overlapDays =
      (if 0 < overlapDays sampleX sampleY then [overlapDays sampleX sampleY] else []) :=
  ⟨by decide, claim_C7_overlaps.2.2.1 [sampleX, sampleY] (by decide) sampleX sampleY
    (by decide) (by decide) (by decide)⟩

/-- Claim C9: for every authenticated request with a valid id of an existing
project, the project GET route answers with a body holding exactly the keys
project, features and feedbackByFeature; no timeline key (dependencyChains,
criticalPath, milestones, overlaps, slack) appears, and the embedded route
invokes no timeline computation anywhere. -/
theorem claim_C9_project_get (sess : Option Session) (validObjectId : Nat → Bool)
    (projects : List ProjectRow) (features : List FeatureRow)
    (feedbacks : List FeedbackRow) (projectId : Nat) (s : Session) (p : ProjectRow)
    (hs : sess = some s) (hv : validObjectId projectId = true)
    (hp : projects.find? (fun q => q.id == projectId) = some p) :
    ∃ body, GET_project sess validObjectId projects features feedbacks projectId
        = GetProjectResult.okResp body ∧
      body.map Prod.fst = ["project", "features", "feedbackByFeature"] ∧
      "dependencyChains" ∉ body.map Prod.fst ∧
      "criticalPath" ∉ body.map Prod.fst ∧
      "milestones" ∉ body.map Prod.fst ∧
      "overlaps" ∉ body.map Prod.fst ∧
      "slack" ∉ body.map Prod.fst := by
  subst hs
  simp only [GET_project, hv, Bool.not_true, Bool.false_eq_true, if_false, hp]
  refine ⟨_, rfl, rfl, ?_, ?_, ?_, ?_, ?_⟩ <;>
    · simp only [List.map_cons, List.map_nil]
      decide

/-- Witness for claim C9 at a concrete authenticated request. -/
theorem claim_C9_project_get_witness :
    ∃ body, GET_project (some ⟨7⟩) (fun _ => true) [⟨42⟩] [⟨1, 42, 5⟩]
        [⟨11, 42, 1, 9⟩] 42 = GetProjectResult.okResp body ∧
      body.map Prod.fst = ["project", "features", "feedbackByFeature"] ∧
      "dependencyChains" ∉ body.map Prod.fst ∧
      "criticalPath" ∉ body.map Prod.fst ∧
      "milestones" ∉ body.map Prod.fst ∧
      "overlaps" ∉ body.map Prod.fst ∧
      "slack" ∉ body.map Prod.fst :=
  claim_C9_project_get (some ⟨7⟩) (fun _ => true) [⟨42⟩] [⟨1, 42, 5⟩]
    [⟨11, 42, 1, 9⟩] 42 ⟨7⟩ ⟨42⟩ rfl rfl (by decide)

/-- Claim C10: handleError always answers a body with success = false; an
APIError response keeps its own statusCode, message and code; any other Error
yields status 500 with its message; any non-Error thrown value yields status
500 with the fixed unknown-error message. -/
theorem claim_C10_handle_error :
    (∀ v : Thrown, (handleError v).body.success = false) ∧
    (∀ (m : String) (s : Nat) (c : Option String),
      handleError (Thrown.apiError m s c) = ⟨s, ⟨false, m, c⟩⟩) ∧
    (∀ m : String, handleError (Thrown.otherError m) = ⟨500, ⟨false, m, none⟩⟩) ∧
    handleError Thrown.nonError = ⟨500, ⟨false, "Unknown error occurred", none⟩⟩ := by
  refine ⟨?_, fun m s c => rfl, fun m => rfl, rfl⟩
  intro v
  cases v <;> rfl

end ProductBee
